import Mathlib

/-!
Verification of the cv-enricht-quality message-enrichment pipeline.

Shallow embedding of the three components (`cv_publisher.py`,
`azure_foundry_reasoner.py`, `mqtt_listener.py`): strings are `List Char`
(Unicode code points, as Python `str`), byte payloads are `List Nat`,
JSON values are an inductive `Json` with an executable serializer
(modelling `json.dumps`) and parser (modelling `json.loads`), and the
MQTT callbacks are explicit functions from their inputs (payload bytes,
filesystem oracle, reasoning-service oracle, clock reading) to the list
of published messages plus log/exception effects.
-/

namespace CvEnrich

/-! ## Characters -/

/-- The double-quote character. -/
def quoteC : Char := Char.ofNat 34

/-- The backslash character. -/
def bslashC : Char := Char.ofNat 92

/-- The apostrophe (single-quote) character. -/
def apostC : Char := Char.ofNat 39

/-- The newline character. -/
def nlC : Char := Char.ofNat 10

/-- The carriage-return character. -/
def crC : Char := Char.ofNat 13

/-- The horizontal-tab character. -/
def tabC : Char := Char.ofNat 9

/-- The forward-slash character. -/
def slashC : Char := Char.ofNat 47

/-- Decimal digit test on a character. -/
def isDigitC (c : Char) : Bool := 48 ≤ c.toNat && c.toNat ≤ 57

/-- The character class removed by the worker's control-character regex
`[\x00-\x1f\x7f-\x9f]` (azure_foundry_reasoner.py line 319). -/
def isCtrl (c : Char) : Bool := c.toNat ≤ 31 || (127 ≤ c.toNat && c.toNat ≤ 159)

/-- Python whitespace: the characters matched by the regex class `\s`
and stripped by `str.strip()` (space, tab, newline, vertical tab,
form feed, carriage return, the information separators 1c-1f, next
line 85, and the Unicode space separators). -/
def isPySpace (c : Char) : Bool :=
  c.toNat = 32 || c.toNat = 9 || c.toNat = 10 || c.toNat = 11 || c.toNat = 12 ||
  c.toNat = 13 || (28 ≤ c.toNat && c.toNat ≤ 31) || c.toNat = 133 || c.toNat = 160 ||
  c.toNat = 5760 || (8192 ≤ c.toNat && c.toNat ≤ 8202) || c.toNat = 8232 ||
  c.toNat = 8233 || c.toNat = 8239 || c.toNat = 8287 || c.toNat = 12288

/-! ## Sanitization (azure_foundry_reasoner.py lines 312-320)

The worker sanitizes the free-text reasoning before merging it into the
enriched event:

    reasoning = reasoning.strip()
    reasoning = reasoning.replace('\n',' ').replace('\r',' ').replace('\t',' ')
    reasoning = reasoning.replace('"', "'").replace('\\', '/')
    reasoning = re.sub(r'[\x00-\x1f\x7f-\x9f]', ' ', reasoning)
    reasoning = re.sub(r'\s+', ' ', reasoning).strip()
-/

/-- Model of Python `str.strip()`: drop leading and trailing whitespace. -/
def pyStrip (l : List Char) : List Char :=
  ((l.dropWhile isPySpace).reverse.dropWhile isPySpace).reverse

/-- Model of Python `str.replace(a, b)` for single characters. -/
def replaceC (a b : Char) (l : List Char) : List Char :=
  l.map fun c => if c = a then b else c

/-- Model of `re.sub(r'[\x00-\x1f\x7f-\x9f]', ' ', s)`. -/
def subCtrlSpace (l : List Char) : List Char :=
  l.map fun c => if isCtrl c then Char.ofNat 32 else c

/-- Helper for `re.sub(r'\s+', ' ', s)`: the flag records whether the
previous character belonged to a whitespace run already emitted as one
space. -/
def collapseWsAux : Bool → List Char → List Char
  | _, [] => []
  | true, c :: cs =>
    if isPySpace c then collapseWsAux true cs
    else c :: collapseWsAux false cs
  | false, c :: cs =>
    if isPySpace c then Char.ofNat 32 :: collapseWsAux true cs
    else c :: collapseWsAux false cs

/-- Model of `re.sub(r'\s+', ' ', s)`: each maximal whitespace run becomes
a single space. -/
def collapseWs (l : List Char) : List Char := collapseWsAux false l

/-- The worker's full sanitization pipeline for the `reasoning` text,
applied in source order (azure_foundry_reasoner.py lines 313-320). -/
def sanitizeReasoning (s : List Char) : List Char :=
  pyStrip (collapseWs (subCtrlSpace (replaceC bslashC slashC (replaceC quoteC apostC
    (replaceC tabC (Char.ofNat 32) (replaceC crC (Char.ofNat 32)
      (replaceC nlC (Char.ofNat 32) (pyStrip s))))))))

/-! ### Sanitization lemmas -/

theorem mem_of_dropWhile {α} {p : α → Bool} {l : List α} {c : α}
    (h : c ∈ l.dropWhile p) : c ∈ l := by
  induction l with
  | nil => simp [List.dropWhile] at h
  | cons a t ih =>
    rw [List.dropWhile_cons] at h
    split at h
    · exact List.mem_cons_of_mem _ (ih h)
    · exact h

theorem dropWhile_suffix {α} (p : α → Bool) (l : List α) : l.dropWhile p <:+ l := by
  induction l with
  | nil => simp
  | cons a t ih =>
    rw [List.dropWhile_cons]
    split
    · exact ih.trans (List.suffix_cons a t)
    · exact List.suffix_refl _

theorem dropWhile_head?_not {α} {p : α → Bool} {l : List α} {h : α}
    (hh : (l.dropWhile p).head? = some h) : p h = false := by
  induction l with
  | nil => simp [List.dropWhile] at hh
  | cons a t ih =>
    rw [List.dropWhile_cons] at hh
    split at hh
    · exact ih hh
    · next hpa =>
      simp only [List.head?_cons, Option.some_inj] at hh
      subst hh
      simpa using hpa

theorem pyStrip_eq (l : List Char) :
    pyStrip l = (l.dropWhile isPySpace).rdropWhile isPySpace := rfl

theorem pyStrip_mem {l : List Char} {c : Char} (h : c ∈ pyStrip l) : c ∈ l := by
  rw [pyStrip_eq] at h
  exact mem_of_dropWhile ((List.rdropWhile_prefix _ _).sublist.mem h)

theorem pyStrip_infix_of (l : List Char) : pyStrip l <:+: l := by
  obtain ⟨s, hs⟩ := List.rdropWhile_prefix isPySpace (l.dropWhile isPySpace)
  obtain ⟨t, ht⟩ := dropWhile_suffix isPySpace l
  exact ⟨t, s, by rw [pyStrip_eq, List.append_assoc, hs, ht]⟩

theorem pyStrip_head?_not {l : List Char} {h : Char}
    (hh : (pyStrip l).head? = some h) : isPySpace h = false := by
  rw [pyStrip_eq] at hh
  obtain ⟨s, hs⟩ := List.rdropWhile_prefix isPySpace (l.dropWhile isPySpace)
  apply dropWhile_head?_not (l := l)
  rw [← hs]
  cases hx : (l.dropWhile isPySpace).rdropWhile isPySpace with
  | nil => rw [hx] at hh; simp at hh
  | cons a t => rw [hx] at hh; simp at hh; simp [hh]

theorem pyStrip_getLast?_not {l : List Char} {h : Char}
    (hh : (pyStrip l).getLast? = some h) : isPySpace h = false := by
  rw [pyStrip_eq] at hh
  have hne : (l.dropWhile isPySpace).rdropWhile isPySpace ≠ [] := by
    intro he; rw [he] at hh; simp at hh
  have hlast := List.rdropWhile_last_not isPySpace (l.dropWhile isPySpace) hne
  rw [List.getLast?_eq_getLast _ hne, Option.some_inj] at hh
  rw [← hh]
  simpa using hlast

theorem pyStrip_eq_self {l : List Char}
    (h1 : ∀ c, l.head? = some c → isPySpace c = false)
    (h2 : ∀ c, l.getLast? = some c → isPySpace c = false) :
    pyStrip l = l := by
  rw [pyStrip_eq]
  have hd : l.dropWhile isPySpace = l := by
    cases l with
    | nil => simp
    | cons a t => rw [List.dropWhile_cons]; simp [h1 a rfl]
  rw [hd, List.rdropWhile_eq_self_iff]
  intro hl
  simp [h2 (l.getLast hl) (List.getLast?_eq_getLast l hl)]

theorem replaceC_mem {a b : Char} {l : List Char} {c : Char}
    (h : c ∈ replaceC a b l) : c = b ∨ (c ∈ l ∧ c ≠ a) := by
  rw [replaceC, List.mem_map] at h
  obtain ⟨z, hz, hfz⟩ := h
  by_cases hza : z = a
  · left; rw [← hfz, hza]; simp
  · right; rw [← hfz, if_neg hza]; exact ⟨hz, hza⟩

theorem replaceC_eq_self {a b : Char} {l : List Char}
    (h : ∀ c ∈ l, c ≠ a) : replaceC a b l = l := by
  rw [replaceC]
  have hcg : ∀ c ∈ l, (if c = a then b else c) = c := by
    intro c hc; simp [h c hc]
  rw [List.map_congr_left hcg]
  exact List.map_id' l

theorem subCtrlSpace_mem {l : List Char} {c : Char}
    (h : c ∈ subCtrlSpace l) : c = Char.ofNat 32 ∨ (c ∈ l ∧ isCtrl c = false) := by
  rw [subCtrlSpace, List.mem_map] at h
  obtain ⟨z, hz, hfz⟩ := h
  by_cases hzc : isCtrl z
  · left; rw [← hfz]; simp [hzc]
  · right; rw [← hfz, if_neg hzc]; exact ⟨hz, by simpa using hzc⟩

theorem subCtrlSpace_eq_self {l : List Char}
    (h : ∀ c ∈ l, isCtrl c = false) : subCtrlSpace l = l := by
  rw [subCtrlSpace]
  have hcg : ∀ c ∈ l, (if isCtrl c then Char.ofNat 32 else c) = c := by
    intro c hc; simp [h c hc]
  rw [List.map_congr_left hcg]
  exact List.map_id' l

theorem collapseWsAux_mem {l : List Char} {c : Char} :
    ∀ {p : Bool}, c ∈ collapseWsAux p l → c = Char.ofNat 32 ∨ (c ∈ l ∧ isPySpace c = false) := by
  induction l with
  | nil => intro p h; cases p <;> simp [collapseWsAux] at h
  | cons a t ih =>
    intro p h
    have tailStep : c ∈ collapseWsAux true t ∨ c ∈ collapseWsAux false t →
        c = Char.ofNat 32 ∨ (c ∈ a :: t ∧ isPySpace c = false) := by
      intro hmem
      rcases hmem with hm | hm
      · rcases ih hm with h' | h'
        · exact Or.inl h'
        · exact Or.inr ⟨List.mem_cons_of_mem _ h'.1, h'.2⟩
      · rcases ih hm with h' | h'
        · exact Or.inl h'
        · exact Or.inr ⟨List.mem_cons_of_mem _ h'.1, h'.2⟩
    cases p with
    | true =>
      rw [collapseWsAux] at h
      by_cases hsp : isPySpace a
      · rw [if_pos hsp] at h
        exact tailStep (Or.inl h)
      · rw [if_neg hsp] at h
        rcases List.mem_cons.mp h with h' | h'
        · subst h'; exact Or.inr ⟨List.mem_cons_self _ _, by simpa using hsp⟩
        · exact tailStep (Or.inr h')
    | false =>
      rw [collapseWsAux] at h
      by_cases hsp : isPySpace a
      · rw [if_pos hsp] at h
        rcases List.mem_cons.mp h with h' | h'
        · exact Or.inl h'
        · exact tailStep (Or.inl h')
      · rw [if_neg hsp] at h
        rcases List.mem_cons.mp h with h' | h'
        · subst h'; exact Or.inr ⟨List.mem_cons_self _ _, by simpa using hsp⟩
        · exact tailStep (Or.inr h')

/-- Two adjacent output characters are never both whitespace. -/
def noTwoSp (a b : Char) : Prop := ¬(isPySpace a = true ∧ isPySpace b = true)

theorem collapseWsAux_chain (l : List Char) :
    ∀ p, List.Chain' noTwoSp (collapseWsAux p l) ∧
      (p = true → ∀ c, (collapseWsAux p l).head? = some c → isPySpace c = false) := by
  induction l with
  | nil => intro p; cases p <;> simp [collapseWsAux]
  | cons a t ih =>
    intro p
    have hnonsp : isPySpace a = false →
        List.Chain' noTwoSp (a :: collapseWsAux false t) := by
      intro hsp
      rw [List.chain'_cons']
      refine ⟨?_, (ih false).1⟩
      intro y _
      exact fun hcon => by rw [hcon.1] at hsp; simp at hsp
    cases p with
    | true =>
      rw [collapseWsAux]
      by_cases hsp : isPySpace a
      · rw [if_pos hsp]
        exact ⟨(ih true).1, fun _ => (ih true).2 rfl⟩
      · rw [if_neg hsp]
        refine ⟨hnonsp (by simpa using hsp), ?_⟩
        intro _ c hc
        simp only [List.head?_cons, Option.some_inj] at hc
        subst hc
        simpa using hsp
    | false =>
      rw [collapseWsAux]
      by_cases hsp : isPySpace a
      · rw [if_pos hsp]
        refine ⟨?_, by simp⟩
        rw [List.chain'_cons']
        refine ⟨?_, (ih true).1⟩
        intro y hy
        have hns := (ih true).2 rfl y hy
        exact fun hcon => by rw [hcon.2] at hns; simp at hns
      · rw [if_neg hsp]
        exact ⟨hnonsp (by simpa using hsp), by simp⟩

theorem collapseWsAux_eq_self {l : List Char}
    (hset : ∀ c ∈ l, isPySpace c = true → c = Char.ofNat 32)
    (hch : List.Chain' noTwoSp l) :
    ∀ p, (p = true → ∀ c, l.head? = some c → isPySpace c = false) →
      collapseWsAux p l = l := by
  induction l with
  | nil => intro p _; simp [collapseWsAux]
  | cons a t ih =>
    intro p hp
    rcases List.chain'_cons'.mp hch with ⟨hha, hcht⟩
    by_cases hsp : isPySpace a
    · have hpf : p = false := by
        cases p with
        | false => rfl
        | true => exact absurd hsp (by simpa using hp rfl a rfl)
      subst hpf
      rw [collapseWsAux, if_pos hsp]
      have ha32 : a = Char.ofNat 32 := hset a (List.mem_cons_self _ _) hsp
      have ht : collapseWsAux true t = t := by
        apply ih (fun c hc => hset c (List.mem_cons_of_mem _ hc)) hcht
        intro _ c hc
        have hns := hha c hc
        rw [noTwoSp] at hns
        by_contra hcon
        exact hns ⟨hsp, by simpa using hcon⟩
      rw [ht, ha32]
    · have ht : collapseWsAux false t = t :=
        ih (fun c hc => hset c (List.mem_cons_of_mem _ hc)) hcht false (by simp)
      cases p with
      | true => rw [collapseWsAux, if_neg hsp, ht]
      | false => rw [collapseWsAux, if_neg hsp, ht]

/-- Characterization of sanitized text: no control characters, no double
quote, no backslash, all whitespace is the plain space, no two adjacent
whitespace characters, no leading or trailing whitespace. -/
def Sane (l : List Char) : Prop :=
  (∀ c ∈ l, isCtrl c = false ∧ c ≠ quoteC ∧ c ≠ bslashC ∧ (isPySpace c = true → c = Char.ofNat 32)) ∧
  List.Chain' noTwoSp l ∧
  (∀ c, l.head? = some c → isPySpace c = false) ∧
  (∀ c, l.getLast? = some c → isPySpace c = false)

theorem sanitizeReasoning_sane (s : List Char) : Sane (sanitizeReasoning s) := by
  rw [sanitizeReasoning]
  set W := replaceC tabC (Char.ofNat 32) (replaceC crC (Char.ofNat 32)
      (replaceC nlC (Char.ofNat 32) (pyStrip s))) with hW
  set Y := replaceC quoteC apostC W with hY
  set Z := replaceC bslashC slashC Y with hZ
  set X := subCtrlSpace Z with hX
  refine ⟨?_, ?_, ?_, ?_⟩
  · intro c hc
    have hc1 : c ∈ collapseWs X := pyStrip_mem hc
    rcases collapseWsAux_mem hc1 with h32 | ⟨hcX, hcsp⟩
    · subst h32; refine ⟨by decide, by decide, by decide, fun _ => rfl⟩
    · refine ⟨?_, ?_, ?_, fun hcon => by rw [hcon] at hcsp; exact absurd hcsp (by simp)⟩
      · rcases subCtrlSpace_mem hcX with h32 | ⟨_, hctl⟩
        · subst h32; decide
        · exact hctl
      · rcases subCtrlSpace_mem hcX with h32 | ⟨hcZ, _⟩
        · subst h32; decide
        · rcases replaceC_mem hcZ with hsl | ⟨hcY, _⟩
          · subst hsl; decide
          · rcases replaceC_mem hcY with hap | ⟨_, hq⟩
            · subst hap; decide
            · exact hq
      · rcases subCtrlSpace_mem hcX with h32 | ⟨hcZ, _⟩
        · subst h32; decide
        · rcases replaceC_mem hcZ with hsl | ⟨_, hb⟩
          · subst hsl; decide
          · exact hb
  · exact List.Chain'.infix ((collapseWsAux_chain X false).1) (pyStrip_infix_of _)
  · intro c hc; exact pyStrip_head?_not hc
  · intro c hc; exact pyStrip_getLast?_not hc

theorem sanitizeReasoning_of_sane {l : List Char} (h : Sane l) :
    sanitizeReasoning l = l := by
  obtain ⟨hset, hch, hhd, hlast⟩ := h
  have hstrip : pyStrip l = l := pyStrip_eq_self hhd hlast
  have hnl : replaceC nlC (Char.ofNat 32) l = l := by
    apply replaceC_eq_self
    intro c hc hcon
    subst hcon
    exact absurd (hset _ hc).1 (by decide)
  have hcr : replaceC crC (Char.ofNat 32) l = l := by
    apply replaceC_eq_self
    intro c hc hcon
    subst hcon
    exact absurd (hset _ hc).1 (by decide)
  have htab : replaceC tabC (Char.ofNat 32) l = l := by
    apply replaceC_eq_self
    intro c hc hcon
    subst hcon
    exact absurd (hset _ hc).1 (by decide)
  have hq : replaceC quoteC apostC l = l :=
    replaceC_eq_self fun c hc => (hset _ hc).2.1
  have hb : replaceC bslashC slashC l = l :=
    replaceC_eq_self fun c hc => (hset _ hc).2.2.1
  have hctl : subCtrlSpace l = l :=
    subCtrlSpace_eq_self fun c hc => (hset _ hc).1
  have hcoll : collapseWs l = l :=
    collapseWsAux_eq_self (fun c hc => (hset _ hc).2.2.2) hch false (by simp)
  rw [sanitizeReasoning, hstrip, hnl, hcr, htab, hq, hb, hctl, hcoll, hstrip]

/-- C2: the sanitized reasoning string contains no raw newline, tab,
double quote, or backslash, for any input text. -/
theorem sanitize_no_forbidden_chars (s : List Char) (c : Char)
    (hc : c ∈ sanitizeReasoning s) :
    c ≠ nlC ∧ c ≠ tabC ∧ c ≠ quoteC ∧ c ≠ bslashC := by
  obtain ⟨hset, _, _, _⟩ := sanitizeReasoning_sane s
  obtain ⟨hctl, hq, hb, _⟩ := hset c hc
  refine ⟨?_, ?_, hq, hb⟩
  · intro hcon; subst hcon; exact absurd hctl (by decide)
  · intro hcon; subst hcon; exact absurd hctl (by decide)

/-- Witness for C2 at a concrete input containing all four forbidden
characters. -/
theorem sanitize_no_forbidden_chars_wit :
    Char.ofNat 97 ≠ nlC ∧ Char.ofNat 97 ≠ tabC ∧
    Char.ofNat 97 ≠ quoteC ∧ Char.ofNat 97 ≠ bslashC :=
  sanitize_no_forbidden_chars
    [nlC, Char.ofNat 97, tabC, quoteC, bslashC, Char.ofNat 98] (Char.ofNat 97)
    (by decide)

/-- C9: the worker's sanitization of the reasoning text is idempotent. -/
theorem sanitize_idempotent (s : List Char) :
    sanitizeReasoning (sanitizeReasoning s) = sanitizeReasoning s :=
  sanitizeReasoning_of_sane (sanitizeReasoning_sane s)

/-! ## JSON values

Model of the Python JSON values flowing through `json.loads` /
`json.dumps`. Strings are lists of Unicode code points. A number keeps
its grammar components verbatim (sign, integer digits, fraction digits,
exponent suffix); Python normalizes the numeric lexeme through int/float
conversion, which is value-preserving on re-serialization, so keeping
the lexeme gives the same field-for-field round-trip statement without
modelling floating point. -/

/-- The left-bracket character. -/
def lbrackC : Char := Char.ofNat 91

/-- The right-bracket character. -/
def rbrackC : Char := Char.ofNat 93

/-- The left-brace character. -/
def lbraceC : Char := Char.ofNat 123

/-- The right-brace character. -/
def rbraceC : Char := Char.ofNat 125

/-- The comma character. -/
def commaC : Char := Char.ofNat 44

/-- The colon character. -/
def colonC : Char := Char.ofNat 58

/-- The minus character. -/
def minusC : Char := Char.ofNat 45

/-- The plus character. -/
def plusC : Char := Char.ofNat 43

/-- The dot character. -/
def dotC : Char := Char.ofNat 46

/-- JSON values as Python's `json` module handles them: besides the
standard values, the module's default `parse_constant`/`allow_nan`
behavior parses and re-emits the non-standard constants `NaN`,
`Infinity` and `-Infinity` as the corresponding floats, so they are
part of the value space the worker can receive and republish. -/
inductive Json where
  | null : Json
  | bool (b : Bool) : Json
  | num (neg : Bool) (ip : List Char) (frac : List Char) (ex : List Char) : Json
  | nan : Json
  | inf (neg : Bool) : Json
  | str (s : List Char) : Json
  | arr (elems : List Json) : Json
  | obj (fields : List (List Char × Json)) : Json

/-- First value bound to key `k`. Object field lists have unique keys
(the parser deduplicates like a Python dict), so this is dict lookup. -/
def getField (fields : List (List Char × Json)) (k : List Char) : Option Json :=
  match fields with
  | [] => none
  | (k', v) :: rest => if k' = k then some v else getField rest k

/-- Python dict assignment `d[k] = v`: replace the value in place if the
key is present, append otherwise. -/
def insertPair (fields : List (List Char × Json)) (k : List Char) (v : Json) :
    List (List Char × Json) :=
  match fields with
  | [] => [(k, v)]
  | (k', v') :: rest =>
    if k' = k then (k', v) :: rest else (k', v') :: insertPair rest k v

/-- Key membership in a field list. -/
def hasKey (fields : List (List Char × Json)) (k : List Char) : Bool :=
  match fields with
  | [] => false
  | (k', _) :: rest => k' = k || hasKey rest k

/-- The ordered list of keys of an object. -/
def fieldKeys (fields : List (List Char × Json)) : List (List Char) :=
  fields.map Prod.fst

/-- Dict construction from a pair list in order, as the Python parser
builds objects: later duplicate keys overwrite earlier values in place. -/
def dedupFields (fields : List (List Char × Json)) : List (List Char × Json) :=
  fields.foldl (fun acc kv => insertPair acc kv.1 kv.2) []

/-- Grammar of a JSON exponent suffix (after the letter e): optional
sign, then at least one digit. -/
def exWF : List Char → Bool
  | [] => true
  | c :: ds =>
    if c = plusC || c = minusC then !ds.isEmpty && ds.all isDigitC
    else (c :: ds).all isDigitC

/-- No leading zero: the integer part is a single digit or starts with
a nonzero digit. -/
def ipLeadOK : List Char → Bool
  | [] => false
  | c :: rest => !(c = Char.ofNat 48 && !rest.isEmpty)

/-- Grammar of a JSON number as accepted by Python's scanner:
`(-?(?:0|[1-9]\d*))(\.\d+)?([eE][-+]?\d+)?`. -/
def numWF (ip frac ex : List Char) : Bool :=
  !ip.isEmpty && ip.all isDigitC && ipLeadOK ip && frac.all isDigitC && exWF ex

mutual

/-- Well-formedness of a JSON value: number components follow the JSON
grammar and object keys are unique (as in any value built by the
parser, since a Python dict cannot hold duplicate keys). -/
def Json.wf : Json → Bool
  | .null => true
  | .bool _ => true
  | .num _ ip frac ex => numWF ip frac ex
  | .nan => true
  | .inf _ => true
  | .str _ => true
  | .arr es => jsonListWF es
  | .obj fs => jsonFieldsWF fs

/-- All values of a list are well formed. -/
def jsonListWF : List Json → Bool
  | [] => true
  | e :: es => e.wf && jsonListWF es

/-- Keys are unique and all values are well formed. -/
def jsonFieldsWF : List (List Char × Json) → Bool
  | [] => true
  | (k, v) :: fs => !hasKey fs k && v.wf && jsonFieldsWF fs

end

/-! ### Serialization: model of `json.dumps`

Default separators `', '` and `': '`, as in the worker's
`json.dumps(enriched)` call. Strings are escaped as the Python encoder
does for quote, backslash and control characters; other characters are
kept verbatim (the `ensure_ascii=False` form, which is valid JSON with
the same round-trip behavior). -/

/-- Lowercase hex digit. -/
def hexDigit (n : Nat) : Char :=
  if n < 10 then Char.ofNat (48 + n) else Char.ofNat (87 + n)

/-- JSON string escaping of one character. -/
def escapeChar (c : Char) : List Char :=
  if c = quoteC then [bslashC, quoteC]
  else if c = bslashC then [bslashC, bslashC]
  else if c = nlC then [bslashC, 'n']
  else if c = crC then [bslashC, 'r']
  else if c = tabC then [bslashC, 't']
  else if c.toNat = 8 then [bslashC, 'b']
  else if c.toNat = 12 then [bslashC, 'f']
  else if c.toNat < 32 then
    [bslashC, 'u', '0', '0', hexDigit (c.toNat / 16), hexDigit (c.toNat % 16)]
  else [c]

/-- JSON string escaping. -/
def escapeStr : List Char → List Char
  | [] => []
  | c :: cs => escapeChar c ++ escapeStr cs

/-- A serialized JSON string, quotes included. -/
def dumpsStr (s : List Char) : List Char := quoteC :: escapeStr s ++ [quoteC]

/-- A serialized JSON number. -/
def dumpsNum (neg : Bool) (ip frac ex : List Char) : List Char :=
  (if neg then [minusC] else []) ++ ip ++
  (if frac.isEmpty then [] else dotC :: frac) ++
  (if ex.isEmpty then [] else 'e' :: ex)

mutual

/-- Model of `json.dumps` on a JSON value. -/
def dumpsVal : Json → List Char
  | .null => 'n' :: ['u', 'l', 'l']
  | .bool true => 't' :: ['r', 'u', 'e']
  | .bool false => 'f' :: ['a', 'l', 's', 'e']
  | .num neg ip frac ex => dumpsNum neg ip frac ex
  | .nan => 'N' :: ['a', 'N']
  | .inf false => 'I' :: ['n', 'f', 'i', 'n', 'i', 't', 'y']
  | .inf true => '-' :: ('I' :: ['n', 'f', 'i', 'n', 'i', 't', 'y'])
  | .str s => dumpsStr s
  | .arr [] => [lbrackC, rbrackC]
  | .arr (e :: es) => lbrackC :: (dumpsVal e ++ dumpsArr es) ++ [rbrackC]
  | .obj [] => [lbraceC, rbraceC]
  | .obj ((k, v) :: fs) =>
    lbraceC :: (dumpsStr k ++ colonC :: Char.ofNat 32 :: dumpsVal v ++ dumpsObj fs) ++ [rbraceC]

/-- Remaining array elements, each preceded by `', '`. -/
def dumpsArr : List Json → List Char
  | [] => []
  | e :: es => commaC :: Char.ofNat 32 :: dumpsVal e ++ dumpsArr es

/-- Remaining object fields, each preceded by `', '`. -/
def dumpsObj : List (List Char × Json) → List Char
  | [] => []
  | (k, v) :: fs =>
    commaC :: Char.ofNat 32 :: (dumpsStr k ++ colonC :: Char.ofNat 32 :: dumpsVal v) ++ dumpsObj fs

end

/-! ### Parsing: model of `json.loads` -/

/-- JSON inter-token whitespace (space, tab, newline, carriage return). -/
def jsonWs (c : Char) : Bool :=
  c.toNat = 32 || c.toNat = 9 || c.toNat = 10 || c.toNat = 13

/-- Skip inter-token whitespace. -/
def skipWs : List Char → List Char
  | [] => []
  | c :: cs => if jsonWs c then skipWs cs else c :: cs

/-- Value of a hex digit character, upper or lower case. -/
def hexVal (c : Char) : Option Nat :=
  if 48 ≤ c.toNat && c.toNat ≤ 57 then some (c.toNat - 48)
  else if 97 ≤ c.toNat && c.toNat ≤ 102 then some (c.toNat - 87)
  else if 65 ≤ c.toNat && c.toNat ≤ 70 then some (c.toNat - 55)
  else none

/-- Prepend a decoded character to a string-body parse result. -/
def consStr (c : Char) : Option (List Char × List Char) → Option (List Char × List Char)
  | none => none
  | some (s, r) => some (c :: s, r)

/-- Value of a 4-digit hex escape payload. -/
def hexVal4 (a b c d : Char) : Option Nat :=
  (hexVal a).bind fun va => (hexVal b).bind fun vb => (hexVal c).bind fun vc =>
    (hexVal d).bind fun vd => some (((va * 16 + vb) * 16 + vc) * 16 + vd)

mutual

/-- Parse the body of a JSON string after the opening quote, decoding
escapes, up to and including the closing quote. Raw control characters
are rejected (strict mode), as are invalid escapes. -/
def parseStrBody : List Char → Option (List Char × List Char)
  | [] => none
  | c :: cs =>
    if c = quoteC then some ([], cs)
    else if c = bslashC then parseEsc cs
    else if c.toNat < 32 then none
    else consStr c (parseStrBody cs)

/-- Decode one escape sequence after a backslash, then continue with the
string body. Escaped surrogate halves are rejected (they have no code
point; the serializer never emits them). -/
def parseEsc : List Char → Option (List Char × List Char)
  | [] => none
  | e :: cs2 =>
    if e = quoteC then consStr quoteC (parseStrBody cs2)
    else if e = bslashC then consStr bslashC (parseStrBody cs2)
    else if e = slashC then consStr slashC (parseStrBody cs2)
    else if e = 'b' then consStr (Char.ofNat 8) (parseStrBody cs2)
    else if e = 'f' then consStr (Char.ofNat 12) (parseStrBody cs2)
    else if e = 'n' then consStr nlC (parseStrBody cs2)
    else if e = 'r' then consStr crC (parseStrBody cs2)
    else if e = 't' then consStr tabC (parseStrBody cs2)
    else if e = 'u' then parseU cs2
    else none

/-- Decode a `\uXXXX` escape payload, then continue with the string
body. -/
def parseU : List Char → Option (List Char × List Char)
  | x1 :: x2 :: x3 :: x4 :: cs3 =>
    (hexVal4 x1 x2 x3 x4).bind fun code =>
      if code < 55296 || 57344 ≤ code then consStr (Char.ofNat code) (parseStrBody cs3)
      else none
  | _ => none

end

/-- Greedy run of decimal digits. -/
def lexDigits : List Char → (List Char × List Char)
  | [] => ([], [])
  | c :: cs =>
    if isDigitC c then
      let (ds, r) := lexDigits cs
      (c :: ds, r)
    else ([], c :: cs)

/-- Integer part per the Python scanner: `0` alone, or a nonzero digit
followed by a greedy digit run. -/
def lexIntPart : List Char → Option (List Char × List Char)
  | [] => none
  | c :: cs =>
    if c = Char.ofNat 48 then some ([c], cs)
    else if isDigitC c then some (c :: (lexDigits cs).1, (lexDigits cs).2)
    else none

/-- Optional fraction part: digits after the dot ([] when absent). -/
def lexFrac : List Char → Option (List Char × List Char)
  | [] => some ([], [])
  | c :: cs =>
    if c = dotC then
      if (lexDigits cs).1.isEmpty then none
      else some ((lexDigits cs).1, (lexDigits cs).2)
    else some ([], c :: cs)

/-- Exponent sign and digits after the letter e or E. -/
def lexExpTail : List Char → Option (List Char × List Char)
  | [] => none
  | s :: cs2 =>
    if s = plusC || s = minusC then
      if (lexDigits cs2).1.isEmpty then none
      else some (s :: (lexDigits cs2).1, (lexDigits cs2).2)
    else
      if (lexDigits (s :: cs2)).1.isEmpty then none
      else some ((lexDigits (s :: cs2)).1, (lexDigits (s :: cs2)).2)

/-- Optional exponent part: sign and digits after the letter
([] when absent; the letter case is not kept, as Python converts the
lexeme to a float anyway). -/
def lexExp : List Char → Option (List Char × List Char)
  | [] => some ([], [])
  | c :: cs =>
    if c = 'e' || c = 'E' then lexExpTail cs
    else some ([], c :: cs)

/-- Integer, fraction, and exponent components of a number lexeme. -/
def lexNumBody (cs : List Char) : Option (List Char × List Char × List Char × List Char) :=
  (lexIntPart cs).bind fun pr =>
    (lexFrac pr.2).bind fun pf =>
      (lexExp pf.2).bind fun pe =>
        some (pr.1, pf.1, pe.1, pe.2)

/-- Lex a JSON number at the head of the input. -/
def lexNum (cs : List Char) : Option (Json × List Char) :=
  match cs with
  | [] => none
  | c :: r =>
    if c = minusC then
      (lexNumBody r).bind fun q => some (.num true q.1 q.2.1 q.2.2.1, q.2.2.2)
    else
      (lexNumBody cs).bind fun q => some (.num false q.1 q.2.1 q.2.2.1, q.2.2.2)

/-- Recognize the tail of the literal `null`. -/
def parseLitNull : List Char → Option (Json × List Char)
  | [] => none
  | [_] => none
  | [_, _] => none
  | u :: l1 :: l2 :: r =>
    if u = 'u' && l1 = 'l' && l2 = 'l' then some (.null, r) else none

/-- Recognize the tail of the literal `true`. -/
def parseLitTrue : List Char → Option (Json × List Char)
  | [] => none
  | [_] => none
  | [_, _] => none
  | r1 :: u :: e1 :: r =>
    if r1 = 'r' && u = 'u' && e1 = 'e' then some (.bool true, r) else none

/-- Recognize the tail of the literal `false`. -/
def parseLitFalse : List Char → Option (Json × List Char)
  | [] => none
  | [_] => none
  | [_, _] => none
  | [_, _, _] => none
  | a1 :: l1 :: s1 :: e1 :: r =>
    if a1 = 'a' && l1 = 'l' && s1 = 's' && e1 = 'e' then some (.bool false, r) else none

/-- Expect the given characters at the head of the input and return
the rest. -/
def expectChars : List Char → List Char → Option (List Char)
  | [], rest => some rest
  | _ :: _, [] => none
  | e :: es, c :: r => if c = e then expectChars es r else none

/-- Recognize the tail of the constant `NaN` (Python's scanner accepts
it by default via `parse_constant`). -/
def parseLitNaN (cs : List Char) : Option (Json × List Char) :=
  (expectChars ['a', 'N'] cs).bind fun r => some (.nan, r)

/-- Recognize the tail of the constant `Infinity`. -/
def parseLitInfinity (cs : List Char) : Option (Json × List Char) :=
  (expectChars ['n', 'f', 'i', 'n', 'i', 't', 'y'] cs).bind fun r => some (.inf false, r)

/-- Recognize the constant `-Infinity` from after its minus sign, as
the scanner does when the number match on `-` fails. -/
def parseLitNegInfinity (cs : List Char) : Option (Json × List Char) :=
  (expectChars ['I', 'n', 'f', 'i', 'n', 'i', 't', 'y'] cs).bind fun r =>
    some (.inf true, r)

mutual

/-- Fueled recursive-descent JSON value parser (model of `json.loads`'s
scanner); returns the value and the unconsumed rest. Every layer
consumes one fuel unit; `loads` supplies fuel that dominates the call
depth on any serializer output (proved below for the round trip). -/
def parseVal : Nat → List Char → Option (Json × List Char)
  | 0, _ => none
  | fuel + 1, cs => parseValCore fuel (skipWs cs)

/-- Dispatch on the first (non-whitespace) character of a value. As in
Python's scanner, the number match is attempted on `-` and digits, and
the non-standard constants `NaN`, `Infinity` and `-Infinity` are
recognized as well (`-Infinity` only after the number match on the
minus sign has failed, exactly as the scanner orders its checks). -/
def parseValCore : Nat → List Char → Option (Json × List Char)
  | 0, _ => none
  | _ + 1, [] => none
  | fuel + 1, c :: rest =>
    if c = 'n' then parseLitNull rest
    else if c = 't' then parseLitTrue rest
    else if c = 'f' then parseLitFalse rest
    else if c = quoteC then (parseStrBody rest).bind fun pr => some (.str pr.1, pr.2)
    else if c = lbrackC then parseArrStart fuel (skipWs rest)
    else if c = lbraceC then parseObjStart fuel (skipWs rest)
    else if c = minusC || isDigitC c then
      match lexNum (c :: rest) with
      | some pr => some pr
      | none => if c = minusC then parseLitNegInfinity rest else none
    else if c = 'N' then parseLitNaN rest
    else if c = 'I' then parseLitInfinity rest
    else none

/-- After `[`: an empty array or the first element. -/
def parseArrStart : Nat → List Char → Option (Json × List Char)
  | 0, _ => none
  | _ + 1, [] => none
  | fuel + 1, c2 :: r2 =>
    if c2 = rbrackC then some (.arr [], r2)
    else (parseVal fuel (c2 :: r2)).bind fun pv => parseArrTail fuel [pv.1] pv.2

/-- After one or more array elements: skip whitespace, then expect `,`
and another element, or `]` closing the array. -/
def parseArrTail : Nat → List Json → List Char → Option (Json × List Char)
  | 0, _, _ => none
  | fuel + 1, acc, cs => parseArrSep fuel acc (skipWs cs)

/-- Dispatch on the separator after an array element. -/
def parseArrSep : Nat → List Json → List Char → Option (Json × List Char)
  | 0, _, _ => none
  | _ + 1, _, [] => none
  | fuel + 1, acc, c :: rest =>
    if c = commaC then (parseVal fuel rest).bind fun pv => parseArrTail fuel (acc ++ [pv.1]) pv.2
    else if c = rbrackC then some (.arr acc, rest)
    else none

/-- After `{`: an empty object or the first key. -/
def parseObjStart : Nat → List Char → Option (Json × List Char)
  | 0, _ => none
  | _ + 1, [] => none
  | fuel + 1, c2 :: r2 =>
    if c2 = rbraceC then some (.obj [], r2)
    else if c2 = quoteC then (parseStrBody r2).bind fun pk => parseFieldRest fuel [] pk.1 pk.2
    else none

/-- After a parsed key: skip whitespace before the colon. -/
def parseFieldRest : Nat → List (List Char × Json) → List Char → List Char →
    Option (Json × List Char)
  | 0, _, _, _ => none
  | fuel + 1, acc, k, r3 => parseFieldColon fuel acc k (skipWs r3)

/-- Expect `:` and the field's value, then continue with the object
tail, the parsed pair appended. -/
def parseFieldColon : Nat → List (List Char × Json) → List Char → List Char →
    Option (Json × List Char)
  | 0, _, _, _ => none
  | _ + 1, _, _, [] => none
  | fuel + 1, acc, k, c3 :: r4 =>
    if c3 = colonC then
      (parseVal fuel r4).bind fun pv => parseObjTail fuel (acc ++ [(k, pv.1)]) pv.2
    else none

/-- After one or more object fields: skip whitespace, then expect `,`
and another pair, or `}` closing the object. -/
def parseObjTail : Nat → List (List Char × Json) → List Char → Option (Json × List Char)
  | 0, _, _ => none
  | fuel + 1, acc, cs => parseObjSep fuel acc (skipWs cs)

/-- Dispatch on the separator after an object field. On `}` the pair
list is folded into a dict exactly as Python assigns the pairs in
order. -/
def parseObjSep : Nat → List (List Char × Json) → List Char → Option (Json × List Char)
  | 0, _, _ => none
  | _ + 1, _, [] => none
  | fuel + 1, acc, c :: rest =>
    if c = commaC then parseObjKey fuel acc (skipWs rest)
    else if c = rbraceC then some (.obj (dedupFields acc), rest)
    else none

/-- Expect the quoted key of the next object field. -/
def parseObjKey : Nat → List (List Char × Json) → List Char → Option (Json × List Char)
  | 0, _, _ => none
  | _ + 1, _, [] => none
  | fuel + 1, acc, c2 :: r2 =>
    if c2 = quoteC then (parseStrBody r2).bind fun pk => parseFieldRest fuel acc pk.1 pk.2
    else none

end

/-- Model of `json.loads`: parse one value and require only whitespace
after it. The fuel `5 * length + 5` dominates the parser's layer count
(each layer consumes fuel at most five times faster than it consumes
input). -/
def loads (s : List Char) : Option Json :=
  (parseVal (5 * s.length + 5) s).bind fun pr =>
    if skipWs pr.2 = [] then some pr.1 else none

/-- Model of `json.dumps` at the top level. -/
def dumps (v : Json) : List Char := dumpsVal v

/-! ### Round-trip lemmas: the parser inverts the serializer -/

theorem char_of_toNat {c : Char} {n : Nat} (h : c.toNat = n) : c = Char.ofNat n := by
  rw [← h, Char.ofNat_toNat]

theorem skipWs_not {c : Char} (cs : List Char) (h : jsonWs c = false) :
    skipWs (c :: cs) = c :: cs := by
  rw [skipWs, h]
  simp

/-- The unconsumed input after a serialized number must not start with a
character that would extend the lexeme ([] or a separator in practice). -/
def restOk : List Char → Prop
  | [] => True
  | c :: _ =>
    isDigitC c = false ∧ ¬c = dotC ∧ ¬c = 'e' ∧ ¬c = 'E' ∧ ¬c = plusC ∧ ¬c = minusC

/-- The input after a digit run must not start with another digit. -/
def headNotDigit : List Char → Prop
  | [] => True
  | c :: _ => isDigitC c = false

theorem restOk_headNotDigit {rest : List Char} (h : restOk rest) : headNotDigit rest := by
  cases rest with
  | nil => trivial
  | cons c cs => exact h.1

theorem lexDigits_append {dl tl : List Char} (hds : dl.all isDigitC = true)
    (hr : headNotDigit tl) : lexDigits (dl ++ tl) = (dl, tl) := by
  induction dl with
  | nil =>
    cases tl with
    | nil => rfl
    | cons c cs =>
      rw [List.nil_append, lexDigits]
      simp only [headNotDigit] at hr
      simp [hr]
  | cons d ds ih =>
    simp only [List.all_cons, Bool.and_eq_true] at hds
    rw [List.cons_append, lexDigits]
    simp [hds.1, ih hds.2]

theorem digit_ne_minus {c : Char} (h : isDigitC c = true) : ¬c = minusC := by
  intro hc
  subst hc
  revert h
  decide

theorem lexIntPart_zero (cs : List Char) :
    lexIntPart (Char.ofNat 48 :: cs) = some ([Char.ofNat 48], cs) := by
  rw [lexIntPart]
  simp

theorem lexIntPart_digits {d : Char} {ds rest : List Char} (hd : isDigitC d = true)
    (hne : ¬d = Char.ofNat 48) (hds : ds.all isDigitC = true) (hr : headNotDigit rest) :
    lexIntPart ((d :: ds) ++ rest) = some (d :: ds, rest) := by
  rw [List.cons_append, lexIntPart]
  simp [hne, hd, lexDigits_append hds hr]

/-- The input after a fraction part must not start with a digit or a dot. -/
def fracTailOk : List Char → Prop
  | [] => True
  | c :: _ => isDigitC c = false ∧ ¬c = dotC

theorem if_isEmpty_nil {α β : Type} (x y : β) :
    (if ([] : List α).isEmpty = true then x else y) = x := by simp

theorem if_isEmpty_cons {α β : Type} (a : α) (l : List α) (x y : β) :
    (if (a :: l).isEmpty = true then x else y) = y := by simp

theorem lexFrac_dumps {frac tail : List Char} (hf : frac.all isDigitC = true)
    (ht : fracTailOk tail) :
    lexFrac ((if frac.isEmpty then [] else dotC :: frac) ++ tail) = some (frac, tail) := by
  cases frac with
  | nil =>
    rw [if_isEmpty_nil, List.nil_append]
    cases tail with
    | nil => rfl
    | cons c cs =>
      rw [lexFrac]
      simp [ht.2]
  | cons f fs =>
    rw [if_isEmpty_cons, List.cons_append, lexFrac]
    have hnd : headNotDigit tail := by
      cases tail with
      | nil => trivial
      | cons c cs => exact ht.1
    rw [if_pos rfl, lexDigits_append hf hnd]
    simp

theorem lexExp_dumps {ex rest : List Char} (hex : exWF ex = true) (hr : restOk rest) :
    lexExp ((if ex.isEmpty = true then [] else 'e' :: ex) ++ rest) = some (ex, rest) := by
  cases ex with
  | nil =>
    rw [if_isEmpty_nil, List.nil_append]
    cases rest with
    | nil => rfl
    | cons c cs =>
      rw [lexExp]
      simp [hr.2.2.1, hr.2.2.2.1]
  | cons s ds =>
    rw [if_isEmpty_cons, List.cons_append, lexExp,
      if_pos (show ('e' = 'e' || 'e' = 'E') = true by decide), List.cons_append, lexExpTail]
    rw [exWF] at hex
    by_cases hs : (s = plusC || s = minusC) = true
    · rw [if_pos hs] at hex
      simp only [Bool.and_eq_true] at hex
      rw [if_pos hs, lexDigits_append hex.2 (restOk_headNotDigit hr)]
      cases ds with
      | nil => simp at hex
      | cons d0 ds0 => simp
    · rw [if_neg hs] at hex
      rw [if_neg hs, ← List.cons_append,
        lexDigits_append hex (restOk_headNotDigit hr)]
      simp

theorem lexNumBody_dumps {ip frac ex rest : List Char}
    (hwf : numWF ip frac ex = true) (hr : restOk rest) :
    lexNumBody (ip ++ ((if frac.isEmpty then [] else dotC :: frac) ++
      ((if ex.isEmpty then [] else 'e' :: ex) ++ rest))) = some (ip, frac, ex, rest) := by
  simp only [numWF, Bool.and_eq_true] at hwf
  obtain ⟨⟨⟨⟨hne, hipd⟩, hlead⟩, hfd⟩, hex⟩ := hwf
  have hfracTail : fracTailOk ((if ex.isEmpty then [] else 'e' :: ex) ++ rest) := by
    cases ex with
    | nil =>
      rw [if_isEmpty_nil, List.nil_append]
      cases rest with
      | nil => trivial
      | cons c cs => exact ⟨hr.1, hr.2.1⟩
    | cons a b =>
      rw [if_isEmpty_cons, List.cons_append]
      exact ⟨by decide, by decide⟩
  have hintTail : headNotDigit ((if frac.isEmpty then [] else dotC :: frac) ++
      ((if ex.isEmpty then [] else 'e' :: ex) ++ rest)) := by
    cases frac with
    | nil =>
      rw [if_isEmpty_nil, List.nil_append]
      cases hq : (if ex.isEmpty then [] else 'e' :: ex) ++ rest with
      | nil => trivial
      | cons a b =>
        have hft := hfracTail
        rw [hq] at hft
        exact hft.1
    | cons a b =>
      rw [if_isEmpty_cons, List.cons_append]
      show isDigitC dotC = false
      decide
  have hint : lexIntPart (ip ++ ((if frac.isEmpty then [] else dotC :: frac) ++
      ((if ex.isEmpty then [] else 'e' :: ex) ++ rest))) =
      some (ip, (if frac.isEmpty then [] else dotC :: frac) ++
        ((if ex.isEmpty then [] else 'e' :: ex) ++ rest)) := by
    cases hip : ip with
    | nil => rw [hip] at hne; simp at hne
    | cons d ds =>
      rw [hip] at hipd hlead
      simp only [List.all_cons, Bool.and_eq_true] at hipd
      by_cases hd0 : d = Char.ofNat 48
      · have hds : ds = [] := by
          subst hd0
          cases ds with
          | nil => rfl
          | cons x xs => simp [ipLeadOK] at hlead
        subst hds
        rw [hd0, List.cons_append, List.nil_append]
        exact lexIntPart_zero _
      · exact lexIntPart_digits hipd.1 hd0 hipd.2 hintTail
  rw [lexNumBody, hint]
  simp only [Option.some_bind, lexFrac_dumps hfd hfracTail, lexExp_dumps hex hr]

theorem lexNum_dumps {neg : Bool} {ip frac ex rest : List Char}
    (hwf : numWF ip frac ex = true) (hr : restOk rest) :
    lexNum (dumpsNum neg ip frac ex ++ rest) = some (.num neg ip frac ex, rest) := by
  have hbody := @lexNumBody_dumps ip frac ex rest hwf hr
  have hipd : ip.all isDigitC = true := by
    simp only [numWF, Bool.and_eq_true] at hwf
    exact hwf.1.1.1.2
  have hipne : ¬ip = [] := by
    simp only [numWF, Bool.and_eq_true] at hwf
    have hn := hwf.1.1.1.1
    intro hcon
    rw [hcon] at hn
    simp at hn
  obtain ⟨d, ds, hip⟩ : ∃ d ds, ip = d :: ds := by
    cases ip with
    | nil => exact absurd rfl hipne
    | cons d ds => exact ⟨d, ds, rfl⟩
  subst hip
  have hdd : isDigitC d = true := by
    simp only [List.all_cons, Bool.and_eq_true] at hipd
    exact hipd.1
  simp only [List.cons_append, List.append_assoc] at hbody
  cases neg with
  | true =>
    rw [dumpsNum, if_pos rfl]
    simp only [List.append_assoc, List.singleton_append, List.cons_append, List.nil_append]
    rw [lexNum, if_pos rfl, hbody, Option.some_bind]
  | false =>
    rw [dumpsNum, if_neg (by simp), List.nil_append]
    simp only [List.append_assoc, List.cons_append]
    rw [lexNum, if_neg (digit_ne_minus hdd), hbody, Option.some_bind]

theorem hexVal_hexDigit (k : Nat) (hk : k < 16) : hexVal (hexDigit k) = some k := by
  interval_cases k <;> decide

theorem hexVal4_digits (hi lo : Nat) (hhi : hi < 16) (hlo : lo < 16) :
    hexVal4 '0' '0' (hexDigit hi) (hexDigit lo) = some (hi * 16 + lo) := by
  rw [hexVal4, show hexVal '0' = some 0 from rfl, Option.some_bind, Option.some_bind,
    hexVal_hexDigit hi hhi, Option.some_bind, hexVal_hexDigit lo hlo, Option.some_bind]
  norm_num

theorem parseStrBody_ctrl (t : Nat) (ht : t < 32) (tail : List Char) :
    parseStrBody (bslashC :: 'u' :: '0' :: '0' :: hexDigit (t / 16) :: hexDigit (t % 16) :: tail) =
      consStr (Char.ofNat t) (parseStrBody tail) := by
  rw [parseStrBody, if_neg (by decide : ¬bslashC = quoteC), if_pos rfl, parseEsc,
    if_neg (by decide : ¬('u' = quoteC)), if_neg (by decide : ¬('u' = bslashC)),
    if_neg (by decide : ¬('u' = slashC)), if_neg (by decide : ¬('u' = 'b')),
    if_neg (by decide : ¬('u' = 'f')), if_neg (by decide : ¬('u' = 'n')),
    if_neg (by decide : ¬('u' = 'r')), if_neg (by decide : ¬('u' = 't')), if_pos rfl, parseU]
  rw [hexVal4_digits (t / 16) (t % 16) (by omega) (by omega), Option.some_bind]
  have hback : t / 16 * 16 + t % 16 = t := by omega
  rw [hback]
  simp [show t < 55296 by omega]

theorem parseStrBody_escape (s : List Char) (rest : List Char) :
    parseStrBody (escapeStr s ++ (quoteC :: rest)) = some (s, rest) := by
  induction s with
  | nil =>
    rw [escapeStr, List.nil_append, parseStrBody, if_pos rfl]
  | cons c cs ih =>
    rw [escapeStr, List.append_assoc, escapeChar]
    by_cases h1 : c = quoteC
    · subst h1
      rw [if_pos rfl]
      simp only [List.cons_append, List.nil_append]
      rw [parseStrBody, if_neg (by decide : ¬bslashC = quoteC), if_pos rfl, parseEsc,
        if_pos rfl, ih]
      rfl
    · rw [if_neg h1]
      by_cases h2 : c = bslashC
      · subst h2
        rw [if_pos rfl]
        simp only [List.cons_append, List.nil_append]
        rw [parseStrBody, if_neg (by decide : ¬bslashC = quoteC), if_pos rfl, parseEsc,
          if_neg (by decide : ¬bslashC = quoteC), if_pos rfl, ih]
        rfl
      · rw [if_neg h2]
        by_cases h3 : c = nlC
        · subst h3
          rw [if_pos rfl]
          simp only [List.cons_append, List.nil_append]
          rw [parseStrBody, if_neg (by decide : ¬bslashC = quoteC), if_pos rfl, parseEsc,
            if_neg (by decide : ¬('n' = quoteC)), if_neg (by decide : ¬('n' = bslashC)),
            if_neg (by decide : ¬('n' = slashC)), if_neg (by decide : ¬('n' = 'b')),
            if_neg (by decide : ¬('n' = 'f')), if_pos rfl, ih]
          rfl
        · rw [if_neg h3]
          by_cases h4 : c = crC
          · subst h4
            rw [if_pos rfl]
            simp only [List.cons_append, List.nil_append]
            rw [parseStrBody, if_neg (by decide : ¬bslashC = quoteC), if_pos rfl, parseEsc,
              if_neg (by decide : ¬('r' = quoteC)), if_neg (by decide : ¬('r' = bslashC)),
              if_neg (by decide : ¬('r' = slashC)), if_neg (by decide : ¬('r' = 'b')),
              if_neg (by decide : ¬('r' = 'f')), if_neg (by decide : ¬('r' = 'n')),
              if_pos rfl, ih]
            rfl
          · rw [if_neg h4]
            by_cases h5 : c = tabC
            · subst h5
              rw [if_pos rfl]
              simp only [List.cons_append, List.nil_append]
              rw [parseStrBody, if_neg (by decide : ¬bslashC = quoteC), if_pos rfl, parseEsc,
                if_neg (by decide : ¬('t' = quoteC)), if_neg (by decide : ¬('t' = bslashC)),
                if_neg (by decide : ¬('t' = slashC)), if_neg (by decide : ¬('t' = 'b')),
                if_neg (by decide : ¬('t' = 'f')), if_neg (by decide : ¬('t' = 'n')),
                if_neg (by decide : ¬('t' = 'r')), if_pos rfl, ih]
              rfl
            · rw [if_neg h5]
              by_cases h6 : c.toNat = 8
              · rw [if_pos h6]
                simp only [List.cons_append, List.nil_append]
                rw [parseStrBody, if_neg (by decide : ¬bslashC = quoteC), if_pos rfl, parseEsc,
                  if_neg (by decide : ¬('b' = quoteC)), if_neg (by decide : ¬('b' = bslashC)),
                  if_neg (by decide : ¬('b' = slashC)), if_pos rfl, ih, char_of_toNat h6]
                rfl
              · rw [if_neg h6]
                by_cases h7 : c.toNat = 12
                · rw [if_pos h7]
                  simp only [List.cons_append, List.nil_append]
                  rw [parseStrBody, if_neg (by decide : ¬bslashC = quoteC), if_pos rfl, parseEsc,
                    if_neg (by decide : ¬('f' = quoteC)), if_neg (by decide : ¬('f' = bslashC)),
                    if_neg (by decide : ¬('f' = slashC)), if_neg (by decide : ¬('f' = 'b')),
                    if_pos rfl, ih, char_of_toNat h7]
                  rfl
                · rw [if_neg h7]
                  by_cases h8 : c.toNat < 32
                  · rw [if_pos h8]
                    simp only [List.cons_append, List.nil_append]
                    rw [parseStrBody_ctrl c.toNat h8, Char.ofNat_toNat, ih]
                    rfl
                  · rw [if_neg h8]
                    simp only [List.cons_append, List.nil_append]
                    rw [parseStrBody, if_neg h1, if_neg h2,
                      if_neg (by omega : ¬c.toNat < 32), ih]
                    rfl

mutual

/-- Fuel sufficient for `parseValCore` on this serialized value. -/
def Json.ccost : Json → Nat
  | .null => 1
  | .bool _b0 => 1
  | .num _n0 _ _ _ => 1
  | .nan => 1
  | .inf _i0 => 1
  | .str _s0 => 1
  | .arr es => 3 + lcostA es
  | .obj fs => 3 + ocostT fs

/-- Fuel sufficient for `parseArrTail` on these serialized elements. -/
def lcostA : List Json → Nat
  | [] => 2
  | e :: es => 3 + Json.ccost e + lcostA es

/-- Fuel sufficient for `parseObjTail` on these serialized fields. -/
def ocostT : List (List Char × Json) → Nat
  | [] => 2
  | (_, v) :: fs => 6 + Json.ccost v + ocostT fs

end

theorem isDigitC_toNat {c : Char} (h : isDigitC c = true) :
    48 ≤ c.toNat ∧ c.toNat ≤ 57 := by
  rw [isDigitC, Bool.and_eq_true, decide_eq_true_eq, decide_eq_true_eq] at h
  exact h

theorem digit_not_ws {c : Char} (h : isDigitC c = true) : jsonWs c = false := by
  obtain ⟨h1, h2⟩ := isDigitC_toNat h
  rw [jsonWs]
  simp only [Bool.or_eq_false_iff, decide_eq_false_iff_not]
  omega

theorem expectChars_append (es rest : List Char) :
    expectChars es (es ++ rest) = some rest := by
  induction es with
  | nil => rfl
  | cons e es ih => rw [List.cons_append, expectChars, if_pos rfl, ih]

theorem digit_dispatch {c : Char} (h : isDigitC c = true) :
    ¬c = 'n' ∧ ¬c = 't' ∧ ¬c = 'f' ∧ ¬c = quoteC ∧ ¬c = lbrackC ∧ ¬c = lbraceC ∧
      ¬c = rbrackC ∧ ¬c = rbraceC ∧ ¬c = commaC := by
  refine ⟨?_, ?_, ?_, ?_, ?_, ?_, ?_, ?_, ?_⟩ <;>
    · intro hc
      subst hc
      revert h
      decide

/-- Head shape of a serialized number: the sign or a digit. -/
theorem dumpsNum_head {neg : Bool} {ip frac ex : List Char} (hwf : numWF ip frac ex = true) :
    ∃ c t, dumpsNum neg ip frac ex = c :: t ∧ (c = minusC ∨ isDigitC c = true) := by
  have hne : ¬ip = [] := by
    simp only [numWF, Bool.and_eq_true] at hwf
    have hn := hwf.1.1.1.1
    intro hcon
    rw [hcon] at hn
    simp at hn
  have hipd : ip.all isDigitC = true := by
    simp only [numWF, Bool.and_eq_true] at hwf
    exact hwf.1.1.1.2
  obtain ⟨d, ds, hip⟩ : ∃ d ds, ip = d :: ds := by
    cases ip with
    | nil => exact absurd rfl hne
    | cons d ds => exact ⟨d, ds, rfl⟩
  subst hip
  simp only [List.all_cons, Bool.and_eq_true] at hipd
  cases neg with
  | true =>
    rw [dumpsNum, if_pos rfl]
    simp only [List.append_assoc, List.singleton_append]
    exact ⟨minusC, _, rfl, Or.inl rfl⟩
  | false =>
    rw [dumpsNum, if_neg (by simp), List.nil_append]
    simp only [List.append_assoc, List.cons_append]
    exact ⟨d, _, rfl, Or.inr hipd.1⟩

/-- Head shape of any serialized well-formed value: never whitespace,
never a closing bracket or separator. -/
theorem dumpsVal_head (v : Json) (hwf : v.wf = true) :
    ∃ c t, dumpsVal v = c :: t ∧ jsonWs c = false ∧ ¬c = rbrackC ∧ ¬c = rbraceC ∧
      ¬c = commaC ∧ ¬c = colonC := by
  cases v with
  | null => exact ⟨'n', _, rfl, by decide, by decide, by decide, by decide, by decide⟩
  | bool b =>
    cases b with
    | true => exact ⟨'t', _, rfl, by decide, by decide, by decide, by decide, by decide⟩
    | false => exact ⟨'f', _, rfl, by decide, by decide, by decide, by decide, by decide⟩
  | nan => exact ⟨'N', _, rfl, by decide, by decide, by decide, by decide, by decide⟩
  | inf b =>
    cases b with
    | false => exact ⟨'I', _, rfl, by decide, by decide, by decide, by decide, by decide⟩
    | true => exact ⟨'-', _, rfl, by decide, by decide, by decide, by decide, by decide⟩
  | str s => exact ⟨quoteC, _, rfl, by decide, by decide, by decide, by decide, by decide⟩
  | arr es =>
    cases es with
    | nil => exact ⟨lbrackC, _, rfl, by decide, by decide, by decide, by decide, by decide⟩
    | cons e es => exact ⟨lbrackC, _, rfl, by decide, by decide, by decide, by decide, by decide⟩
  | obj fs =>
    cases fs with
    | nil => exact ⟨lbraceC, _, rfl, by decide, by decide, by decide, by decide, by decide⟩
    | cons f fs =>
      obtain ⟨k, v⟩ := f
      exact ⟨lbraceC, _, rfl, by decide, by decide, by decide, by decide, by decide⟩
  | num neg ip frac ex =>
    obtain ⟨c, t, hct, hc⟩ := @dumpsNum_head neg ip frac ex hwf
    refine ⟨c, t, by rw [dumpsVal, hct], ?_, ?_, ?_, ?_, ?_⟩ <;>
      rcases hc with hc | hc
    · subst hc; decide
    · exact digit_not_ws hc
    · subst hc; decide
    · exact (digit_dispatch hc).2.2.2.2.2.2.1
    · subst hc; decide
    · exact (digit_dispatch hc).2.2.2.2.2.2.2.1
    · subst hc; decide
    · exact (digit_dispatch hc).2.2.2.2.2.2.2.2
    · subst hc; decide
    · intro hcon
      subst hcon
      revert hc
      decide

theorem skipWs_dumpsVal (v : Json) (hwf : v.wf = true) (rest : List Char) :
    skipWs (dumpsVal v ++ rest) = dumpsVal v ++ rest := by
  obtain ⟨c, t, hct, hws, _⟩ := dumpsVal_head v hwf
  rw [hct, List.cons_append, skipWs_not _ hws, ← List.cons_append]

theorem restOk_arrTail (es : List Json) (rest : List Char) :
    restOk (dumpsArr es ++ (rbrackC :: rest)) := by
  cases es with
  | nil =>
    rw [dumpsArr, List.nil_append]
    exact ⟨by decide, by decide, by decide, by decide, by decide, by decide⟩
  | cons e es =>
    rw [dumpsArr]
    exact ⟨by decide, by decide, by decide, by decide, by decide, by decide⟩

theorem restOk_objTail (fs : List (List Char × Json)) (rest : List Char) :
    restOk (dumpsObj fs ++ (rbraceC :: rest)) := by
  cases fs with
  | nil =>
    rw [dumpsObj, List.nil_append]
    exact ⟨by decide, by decide, by decide, by decide, by decide, by decide⟩
  | cons f fs =>
    obtain ⟨k, v⟩ := f
    rw [dumpsObj]
    exact ⟨by decide, by decide, by decide, by decide, by decide, by decide⟩

/-! ### Dict lemmas -/

theorem hasKey_of_mem {fs : List (List Char × Json)} {k : List Char} {v : Json}
    (h : (k, v) ∈ fs) : hasKey fs k = true := by
  induction fs with
  | nil => simp at h
  | cons f rest ih =>
    obtain ⟨k', v'⟩ := f
    rw [hasKey]
    rcases List.mem_cons.mp h with h' | h'
    · obtain ⟨hk, _⟩ := Prod.mk.injEq .. ▸ h'
      simp [Prod.mk.injEq] at h'
      simp [h'.1]
    · simp [ih h']

theorem insertPair_fresh {fs : List (List Char × Json)} {k : List Char} {v : Json}
    (h : hasKey fs k = false) : insertPair fs k v = fs ++ [(k, v)] := by
  induction fs with
  | nil => rfl
  | cons f rest ih =>
    obtain ⟨k', v'⟩ := f
    rw [hasKey, Bool.or_eq_false_iff, decide_eq_false_iff_not] at h
    rw [insertPair, if_neg h.1, ih h.2, List.cons_append]

theorem hasKey_append (a b : List (List Char × Json)) (q : List Char) :
    hasKey (a ++ b) q = (hasKey a q || hasKey b q) := by
  induction a with
  | nil => rw [List.nil_append, hasKey, Bool.false_or]
  | cons f rest ih =>
    obtain ⟨k', v'⟩ := f
    rw [List.cons_append, hasKey, hasKey, ih, Bool.or_assoc]

theorem foldl_insert_append (fs : List (List Char × Json)) :
    ∀ acc, (∀ k v, (k, v) ∈ fs → hasKey acc k = false) → jsonFieldsWF fs = true →
      fs.foldl (fun acc kv => insertPair acc kv.1 kv.2) acc = acc ++ fs := by
  induction fs with
  | nil =>
    intro acc _ _
    simp
  | cons f rest ih =>
    obtain ⟨k, v⟩ := f
    intro acc hfresh hwf
    rw [jsonFieldsWF, Bool.and_eq_true, Bool.and_eq_true, Bool.not_eq_true'] at hwf
    obtain ⟨⟨hk, _⟩, hrest⟩ := hwf
    rw [List.foldl_cons]
    have hstep : insertPair acc k v = acc ++ [(k, v)] :=
      insertPair_fresh (hfresh k v (List.mem_cons_self _ _))
    rw [hstep, ih (acc ++ [(k, v)]) ?_ hrest, List.append_assoc, List.singleton_append]
    intro k' v' hmem
    have hne : ¬k = k' := by
      intro hcon
      subst hcon
      rw [hasKey_of_mem hmem] at hk
      exact Bool.true_eq_false.mp hk
    rw [hasKey_append, Bool.or_eq_false_iff]
    refine ⟨hfresh k' v' (List.mem_cons_of_mem _ hmem), ?_⟩
    simp [hasKey, hne]

theorem dedupFields_eq_self {fs : List (List Char × Json)}
    (h : jsonFieldsWF fs = true) : dedupFields fs = fs := by
  rw [dedupFields, foldl_insert_append fs [] (by intro k v _; rfl) h, List.nil_append]

/-! ### The parser inverts the serializer on well-formed values -/

mutual

theorem parseValCore_dumps (v : Json) (hwf : v.wf = true) :
    ∀ fuel rest, Json.ccost v ≤ fuel → restOk rest →
      parseValCore fuel (dumpsVal v ++ rest) = some (v, rest) := by
  intro fuel rest hfuel hrest
  cases v with
  | null =>
    obtain ⟨f, rfl⟩ : ∃ f, fuel = f + 1 := ⟨fuel - 1, by rw [Json.ccost] at hfuel; omega⟩
    rw [dumpsVal]
    simp only [List.cons_append, List.nil_append]
    rw [parseValCore, if_pos rfl, parseLitNull, if_pos (by decide)]
  | bool b =>
    obtain ⟨f, rfl⟩ : ∃ f, fuel = f + 1 := ⟨fuel - 1, by rw [Json.ccost] at hfuel; omega⟩
    cases b with
    | true =>
      rw [dumpsVal]
      simp only [List.cons_append, List.nil_append]
      rw [parseValCore, if_neg (by decide : ¬('t' = 'n')), if_pos rfl, parseLitTrue,
        if_pos (by decide)]
    | false =>
      rw [dumpsVal]
      simp only [List.cons_append, List.nil_append]
      rw [parseValCore, if_neg (by decide : ¬('f' = 'n')), if_neg (by decide : ¬('f' = 't')),
        if_pos rfl, parseLitFalse, if_pos (by decide)]
  | str s =>
    obtain ⟨f, rfl⟩ : ∃ f, fuel = f + 1 := ⟨fuel - 1, by rw [Json.ccost] at hfuel; omega⟩
    rw [dumpsVal, dumpsStr]
    simp only [List.cons_append, List.append_assoc, List.singleton_append, List.nil_append]
    rw [parseValCore, if_neg (by decide : ¬(quoteC = 'n')), if_neg (by decide : ¬(quoteC = 't')),
      if_neg (by decide : ¬(quoteC = 'f')), if_pos rfl, parseStrBody_escape, Option.some_bind]
  | num neg ip frac ex =>
    obtain ⟨f, rfl⟩ : ∃ f, fuel = f + 1 := ⟨fuel - 1, by rw [Json.ccost] at hfuel; omega⟩
    rw [Json.wf] at hwf
    obtain ⟨c, t, hct, hc⟩ := @dumpsNum_head neg ip frac ex hwf
    rw [dumpsVal, hct, List.cons_append, parseValCore]
    rcases hc with hm | hd
    · subst hm
      rw [if_neg (by decide : ¬(minusC = 'n')), if_neg (by decide : ¬(minusC = 't')),
        if_neg (by decide : ¬(minusC = 'f')), if_neg (by decide : ¬(minusC = quoteC)),
        if_neg (by decide : ¬(minusC = lbrackC)), if_neg (by decide : ¬(minusC = lbraceC)),
        if_pos (by decide : (minusC = minusC || isDigitC minusC) = true),
        ← List.cons_append, ← hct, lexNum_dumps hwf hrest]
    · obtain ⟨d1, d2, d3, d4, d5, d6, _, _, _⟩ := digit_dispatch hd
      rw [if_neg d1, if_neg d2, if_neg d3, if_neg d4, if_neg d5, if_neg d6,
        if_pos (by simp [hd] : (c = minusC || isDigitC c) = true),
        ← List.cons_append, ← hct, lexNum_dumps hwf hrest]
  | nan =>
    obtain ⟨f, rfl⟩ : ∃ f, fuel = f + 1 := ⟨fuel - 1, by rw [Json.ccost] at hfuel; omega⟩
    rw [dumpsVal]
    simp only [List.cons_append, List.nil_append]
    rw [parseValCore, if_neg (by decide : ¬('N' = 'n')), if_neg (by decide : ¬('N' = 't')),
      if_neg (by decide : ¬('N' = 'f')), if_neg (by decide : ¬('N' = quoteC)),
      if_neg (by decide : ¬('N' = lbrackC)), if_neg (by decide : ¬('N' = lbraceC)),
      if_neg (by decide : ¬(('N' = minusC || isDigitC 'N') = true)), if_pos rfl,
      parseLitNaN, show 'a' :: 'N' :: rest = ['a', 'N'] ++ rest from rfl,
      expectChars_append, Option.some_bind]
  | inf b =>
    obtain ⟨f, rfl⟩ : ∃ f, fuel = f + 1 := ⟨fuel - 1, by rw [Json.ccost] at hfuel; omega⟩
    cases b with
    | false =>
      rw [dumpsVal]
      simp only [List.cons_append, List.nil_append]
      rw [parseValCore, if_neg (by decide : ¬('I' = 'n')),
        if_neg (by decide : ¬('I' = 't')), if_neg (by decide : ¬('I' = 'f')),
        if_neg (by decide : ¬('I' = quoteC)), if_neg (by decide : ¬('I' = lbrackC)),
        if_neg (by decide : ¬('I' = lbraceC)),
        if_neg (by decide : ¬(('I' = minusC || isDigitC 'I') = true)),
        if_neg (by decide : ¬('I' = 'N')), if_pos rfl, parseLitInfinity,
        show 'n' :: 'f' :: 'i' :: 'n' :: 'i' :: 't' :: 'y' :: rest =
          ['n', 'f', 'i', 'n', 'i', 't', 'y'] ++ rest from rfl,
        expectChars_append, Option.some_bind]
    | true =>
      rw [dumpsVal]
      simp only [List.cons_append, List.nil_append]
      rw [parseValCore, if_neg (by decide : ¬('-' = 'n')),
        if_neg (by decide : ¬('-' = 't')), if_neg (by decide : ¬('-' = 'f')),
        if_neg (by decide : ¬('-' = quoteC)), if_neg (by decide : ¬('-' = lbrackC)),
        if_neg (by decide : ¬('-' = lbraceC)),
        if_pos (by decide : (('-' : Char) = minusC || isDigitC '-') = true)]
      have hlex : lexNum ('-' :: 'I' :: 'n' :: 'f' :: 'i' :: 'n' :: 'i' :: 't' :: 'y' ::
          rest) = none := by
        rw [lexNum, if_pos (by decide : ('-' : Char) = minusC), lexNumBody, lexIntPart,
          if_neg (by decide : ¬(('I' : Char) = Char.ofNat 48)),
          if_neg (by decide : ¬(isDigitC 'I' = true))]
        rfl
      rw [hlex, if_pos (by decide : ('-' : Char) = minusC), parseLitNegInfinity,
        show 'I' :: 'n' :: 'f' :: 'i' :: 'n' :: 'i' :: 't' :: 'y' :: rest =
          ['I', 'n', 'f', 'i', 'n', 'i', 't', 'y'] ++ rest from rfl,
        expectChars_append, Option.some_bind]
  | arr es =>
    rw [Json.ccost] at hfuel
    cases es with
    | nil =>
      obtain ⟨f, rfl⟩ : ∃ f, fuel = f + 1 := ⟨fuel - 1, by omega⟩
      rw [dumpsVal]
      simp only [List.cons_append, List.nil_append]
      rw [parseValCore, if_neg (by decide : ¬(lbrackC = 'n')),
        if_neg (by decide : ¬(lbrackC = 't')), if_neg (by decide : ¬(lbrackC = 'f')),
        if_neg (by decide : ¬(lbrackC = quoteC)), if_pos rfl,
        skipWs_not _ (by decide : jsonWs rbrackC = false)]
      obtain ⟨f2, rfl⟩ : ∃ f2, f = f2 + 1 := ⟨f - 1, by rw [lcostA] at hfuel; omega⟩
      rw [parseArrStart, if_pos rfl]
    | cons e es =>
      rw [Json.wf, jsonListWF, Bool.and_eq_true] at hwf
      obtain ⟨hwfe, hwfes⟩ := hwf
      rw [lcostA] at hfuel
      obtain ⟨f, rfl⟩ : ∃ f, fuel = f + 1 := ⟨fuel - 1, by omega⟩
      rw [dumpsVal]
      simp only [List.cons_append, List.append_assoc, List.singleton_append, List.nil_append]
      rw [parseValCore, if_neg (by decide : ¬(lbrackC = 'n')),
        if_neg (by decide : ¬(lbrackC = 't')), if_neg (by decide : ¬(lbrackC = 'f')),
        if_neg (by decide : ¬(lbrackC = quoteC)), if_pos rfl,
        skipWs_dumpsVal e hwfe]
      obtain ⟨f2, rfl⟩ : ∃ f2, f = f2 + 1 := ⟨f - 1, by omega⟩
      obtain ⟨c, t, hct, _, hnrb, _, _, _⟩ := dumpsVal_head e hwfe
      rw [hct, List.cons_append, parseArrStart, if_neg hnrb, ← List.cons_append, ← hct]
      obtain ⟨f3, rfl⟩ : ∃ f3, f2 = f3 + 1 := ⟨f2 - 1, by omega⟩
      rw [parseVal, skipWs_dumpsVal e hwfe,
        parseValCore_dumps e hwfe f3 _ (by omega) (restOk_arrTail es rest)]
      simp only [Option.some_bind]
      rw [parseArrTail_dumps es hwfes (f3 + 1) [e] rest (by omega) hrest,
        List.singleton_append]
  | obj fs =>
    rw [Json.ccost] at hfuel
    cases fs with
    | nil =>
      obtain ⟨f, rfl⟩ : ∃ f, fuel = f + 1 := ⟨fuel - 1, by omega⟩
      rw [dumpsVal]
      simp only [List.cons_append, List.nil_append]
      rw [parseValCore, if_neg (by decide : ¬(lbraceC = 'n')),
        if_neg (by decide : ¬(lbraceC = 't')), if_neg (by decide : ¬(lbraceC = 'f')),
        if_neg (by decide : ¬(lbraceC = quoteC)), if_neg (by decide : ¬(lbraceC = lbrackC)),
        if_pos rfl, skipWs_not _ (by decide : jsonWs rbraceC = false)]
      obtain ⟨f2, rfl⟩ : ∃ f2, f = f2 + 1 := ⟨f - 1, by rw [ocostT] at hfuel; omega⟩
      rw [parseObjStart, if_pos rfl]
    | cons field fs =>
      obtain ⟨k, v⟩ := field
      have hwf' := hwf
      rw [Json.wf, jsonFieldsWF, Bool.and_eq_true, Bool.and_eq_true] at hwf'
      obtain ⟨⟨_, hwfv⟩, hwffs⟩ := hwf'
      rw [ocostT] at hfuel
      obtain ⟨f, rfl⟩ : ∃ f, fuel = f + 1 := ⟨fuel - 1, by omega⟩
      rw [dumpsVal, dumpsStr]
      simp only [List.cons_append, List.append_assoc, List.singleton_append, List.nil_append]
      rw [parseValCore, if_neg (by decide : ¬(lbraceC = 'n')),
        if_neg (by decide : ¬(lbraceC = 't')), if_neg (by decide : ¬(lbraceC = 'f')),
        if_neg (by decide : ¬(lbraceC = quoteC)), if_neg (by decide : ¬(lbraceC = lbrackC)),
        if_pos rfl, skipWs_not _ (by decide : jsonWs quoteC = false)]
      obtain ⟨f2, rfl⟩ : ∃ f2, f = f2 + 1 := ⟨f - 1, by omega⟩
      rw [parseObjStart, if_neg (by decide : ¬(quoteC = rbraceC)), if_pos rfl,
        parseStrBody_escape]
      simp only [Option.some_bind]
      obtain ⟨f3, rfl⟩ : ∃ f3, f2 = f3 + 1 := ⟨f2 - 1, by omega⟩
      rw [parseFieldRest, skipWs_not _ (by decide : jsonWs colonC = false)]
      obtain ⟨f4, rfl⟩ : ∃ f4, f3 = f4 + 1 := ⟨f3 - 1, by omega⟩
      rw [parseFieldColon, if_pos rfl]
      obtain ⟨f5, rfl⟩ : ∃ f5, f4 = f5 + 1 := ⟨f4 - 1, by omega⟩
      rw [parseVal, skipWs, if_pos (by decide : jsonWs (Char.ofNat 32) = true),
        skipWs_dumpsVal v hwfv,
        parseValCore_dumps v hwfv f5 _ (by omega) (restOk_objTail fs rest)]
      simp only [Option.some_bind, List.nil_append]
      rw [parseObjTail_dumps fs hwffs (f5 + 1) [(k, v)] rest (by omega) hrest,
        List.singleton_append, dedupFields_eq_self hwf]

theorem parseArrTail_dumps (es : List Json) (hwf : jsonListWF es = true) :
    ∀ fuel acc rest, lcostA es ≤ fuel → restOk rest →
      parseArrTail fuel acc (dumpsArr es ++ (rbrackC :: rest)) =
        some (.arr (acc ++ es), rest) := by
  intro fuel acc rest hfuel hrest
  cases es with
  | nil =>
    rw [lcostA] at hfuel
    obtain ⟨f, rfl⟩ : ∃ f, fuel = f + 1 := ⟨fuel - 1, by omega⟩
    rw [dumpsArr, List.nil_append, parseArrTail,
      skipWs_not _ (by decide : jsonWs rbrackC = false)]
    obtain ⟨f2, rfl⟩ : ∃ f2, f = f2 + 1 := ⟨f - 1, by omega⟩
    rw [parseArrSep, if_neg (by decide : ¬(rbrackC = commaC)), if_pos rfl, List.append_nil]
  | cons e es =>
    rw [lcostA] at hfuel
    rw [jsonListWF, Bool.and_eq_true] at hwf
    obtain ⟨hwfe, hwfes⟩ := hwf
    obtain ⟨f, rfl⟩ : ∃ f, fuel = f + 1 := ⟨fuel - 1, by omega⟩
    rw [dumpsArr]
    simp only [List.cons_append, List.append_assoc, List.nil_append]
    rw [parseArrTail, skipWs_not _ (by decide : jsonWs commaC = false)]
    obtain ⟨f2, rfl⟩ : ∃ f2, f = f2 + 1 := ⟨f - 1, by omega⟩
    rw [parseArrSep, if_pos rfl]
    obtain ⟨f3, rfl⟩ : ∃ f3, f2 = f3 + 1 := ⟨f2 - 1, by omega⟩
    rw [parseVal, skipWs, if_pos (by decide : jsonWs (Char.ofNat 32) = true),
      skipWs_dumpsVal e hwfe,
      parseValCore_dumps e hwfe f3 _ (by omega) (restOk_arrTail es rest)]
    simp only [Option.some_bind]
    rw [parseArrTail_dumps es hwfes (f3 + 1) (acc ++ [e]) rest (by omega) hrest,
      List.append_assoc, List.singleton_append]

theorem parseObjTail_dumps (fs : List (List Char × Json)) (hwf : jsonFieldsWF fs = true) :
    ∀ fuel acc rest, ocostT fs ≤ fuel → restOk rest →
      parseObjTail fuel acc (dumpsObj fs ++ (rbraceC :: rest)) =
        some (.obj (dedupFields (acc ++ fs)), rest) := by
  intro fuel acc rest hfuel hrest
  cases fs with
  | nil =>
    rw [ocostT] at hfuel
    obtain ⟨f, rfl⟩ : ∃ f, fuel = f + 1 := ⟨fuel - 1, by omega⟩
    rw [dumpsObj, List.nil_append, parseObjTail,
      skipWs_not _ (by decide : jsonWs rbraceC = false)]
    obtain ⟨f2, rfl⟩ : ∃ f2, f = f2 + 1 := ⟨f - 1, by omega⟩
    rw [parseObjSep, if_neg (by decide : ¬(rbraceC = commaC)), if_pos rfl, List.append_nil]
  | cons field fs =>
    obtain ⟨k, v⟩ := field
    rw [ocostT] at hfuel
    rw [jsonFieldsWF, Bool.and_eq_true, Bool.and_eq_true] at hwf
    obtain ⟨⟨_, hwfv⟩, hwffs⟩ := hwf
    obtain ⟨f, rfl⟩ : ∃ f, fuel = f + 1 := ⟨fuel - 1, by omega⟩
    rw [dumpsObj, dumpsStr]
    simp only [List.cons_append, List.append_assoc, List.singleton_append, List.nil_append]
    rw [parseObjTail, skipWs_not _ (by decide : jsonWs commaC = false)]
    obtain ⟨f2, rfl⟩ : ∃ f2, f = f2 + 1 := ⟨f - 1, by omega⟩
    rw [parseObjSep, if_pos rfl, skipWs, if_pos (by decide : jsonWs (Char.ofNat 32) = true),
      skipWs_not _ (by decide : jsonWs quoteC = false)]
    obtain ⟨f3, rfl⟩ : ∃ f3, f2 = f3 + 1 := ⟨f2 - 1, by omega⟩
    rw [parseObjKey, if_pos rfl, parseStrBody_escape]
    simp only [Option.some_bind]
    obtain ⟨f4, rfl⟩ : ∃ f4, f3 = f4 + 1 := ⟨f3 - 1, by omega⟩
    rw [parseFieldRest, skipWs_not _ (by decide : jsonWs colonC = false)]
    obtain ⟨f5, rfl⟩ : ∃ f5, f4 = f5 + 1 := ⟨f4 - 1, by omega⟩
    rw [parseFieldColon, if_pos rfl]
    obtain ⟨f6, rfl⟩ : ∃ f6, f5 = f6 + 1 := ⟨f5 - 1, by omega⟩
    rw [parseVal, skipWs, if_pos (by decide : jsonWs (Char.ofNat 32) = true),
      skipWs_dumpsVal v hwfv,
      parseValCore_dumps v hwfv f6 _ (by omega) (restOk_objTail fs rest)]
    simp only [Option.some_bind]
    rw [parseObjTail_dumps fs hwffs (f6 + 1) (acc ++ [(k, v)]) rest (by omega) hrest,
      List.append_assoc, List.singleton_append]

end

/-! ### Parsed values are well formed -/

theorem lexDigits_digits (cs : List Char) : (lexDigits cs).1.all isDigitC = true := by
  induction cs with
  | nil => rfl
  | cons c cs ih =>
    rw [lexDigits]
    by_cases h : isDigitC c
    · rcases hlex : lexDigits cs with ⟨ds, r⟩
      rw [hlex] at ih
      simp [h, hlex, ih]
    · simp [h]

theorem lexIntPart_wf {cs ip r : List Char} (h : lexIntPart cs = some (ip, r)) :
    ¬ip = [] ∧ ip.all isDigitC = true ∧
      ∀ d ds, ip = d :: ds → d = Char.ofNat 48 → ds = [] := by
  cases cs with
  | nil => simp [lexIntPart] at h
  | cons c cs =>
    rw [lexIntPart] at h
    by_cases h0 : c = Char.ofNat 48
    · rw [if_pos h0] at h
      obtain ⟨he, _⟩ := Prod.mk.injEq .. ▸ Option.some_inj.mp h
      rw [← he]
      refine ⟨by simp, by simp [h0, isDigitC], ?_⟩
      intro d ds hcd _
      exact (List.cons.injEq .. ▸ hcd).2.symm
    · rw [if_neg h0] at h
      by_cases hd : isDigitC c
      · rw [if_pos hd] at h
        obtain ⟨he, _⟩ := Prod.mk.injEq .. ▸ Option.some_inj.mp h
        have hds := lexDigits_digits cs
        rw [← he]
        refine ⟨by simp, by simp [hd, hds], ?_⟩
        intro d ds hcd hd0
        obtain ⟨hc1, _⟩ := List.cons.injEq .. ▸ hcd
        exact absurd (hc1 ▸ hd0) h0
      · rw [if_neg hd] at h
        simp at h

theorem lexFrac_wf {cs frac r : List Char} (h : lexFrac cs = some (frac, r)) :
    frac.all isDigitC = true := by
  cases cs with
  | nil =>
    rw [lexFrac] at h
    obtain ⟨he, _⟩ := Prod.mk.injEq .. ▸ Option.some_inj.mp h
    rw [← he]
    rfl
  | cons c cs =>
    rw [lexFrac] at h
    by_cases hdot : c = dotC
    · rw [if_pos hdot] at h
      by_cases hemp : (lexDigits cs).1.isEmpty
      · rw [if_pos hemp] at h
        simp at h
      · rw [if_neg hemp] at h
        obtain ⟨he, _⟩ := Prod.mk.injEq .. ▸ Option.some_inj.mp h
        rw [← he]
        exact lexDigits_digits cs
    · rw [if_neg hdot] at h
      obtain ⟨he, _⟩ := Prod.mk.injEq .. ▸ Option.some_inj.mp h
      rw [← he]
      rfl

theorem digit_ne_sign {c : Char} (h : isDigitC c = true) :
    (c = plusC || c = minusC) = false := by
  simp only [Bool.or_eq_false_iff, decide_eq_false_iff_not]
  constructor <;> (intro hc; subst hc; revert h; decide)

theorem lexExp_wf {cs ex r : List Char} (h : lexExp cs = some (ex, r)) : exWF ex = true := by
  cases cs with
  | nil =>
    rw [lexExp] at h
    obtain ⟨he, _⟩ := Prod.mk.injEq .. ▸ Option.some_inj.mp h
    rw [← he]
    rfl
  | cons c cs =>
    rw [lexExp] at h
    by_cases hce : (c = 'e' || c = 'E') = true
    · rw [if_pos hce] at h
      cases cs with
      | nil => simp [lexExpTail] at h
      | cons s cs2 =>
        rw [lexExpTail] at h
        by_cases hs : (s = plusC || s = minusC) = true
        · rw [if_pos hs] at h
          by_cases hemp : (lexDigits cs2).1.isEmpty
          · rw [if_pos hemp] at h
            simp at h
          · rw [if_neg hemp] at h
            obtain ⟨he, _⟩ := Prod.mk.injEq .. ▸ Option.some_inj.mp h
            have hds := lexDigits_digits cs2
            rw [← he, exWF, if_pos hs]
            simp [hds]
            simpa using hemp
        · rw [if_neg hs] at h
          by_cases hemp : (lexDigits (s :: cs2)).1.isEmpty
          · rw [if_pos hemp] at h
            simp at h
          · rw [if_neg hemp] at h
            obtain ⟨he, _⟩ := Prod.mk.injEq .. ▸ Option.some_inj.mp h
            have hds := lexDigits_digits (s :: cs2)
            subst he
            rcases hcase : (lexDigits (s :: cs2)).1 with _ | ⟨d0, ds0⟩
            · rfl
            · rw [hcase] at hds
              simp only [List.all_cons, Bool.and_eq_true] at hds
              rw [exWF, if_neg (by simp [digit_ne_sign hds.1])]
              simp [hds.1, hds.2]
    · rw [if_neg hce] at h
      obtain ⟨he, _⟩ := Prod.mk.injEq .. ▸ Option.some_inj.mp h
      rw [← he]
      rfl

theorem lexNum_wf {cs : List Char} {v : Json} {r : List Char}
    (h : lexNum cs = some (v, r)) : v.wf = true := by
  cases cs with
  | nil => simp [lexNum] at h
  | cons c cs =>
    rw [lexNum] at h
    have hbody : ∀ (neg : Bool) (input : List Char),
        ((lexNumBody input).bind fun q =>
          some (Json.num neg q.1 q.2.1 q.2.2.1, q.2.2.2)) = some (v, r) → v.wf = true := by
      intro neg input hb
      rw [lexNumBody] at hb
      rcases hip : lexIntPart input with _ | ⟨ip, cs2⟩
      · rw [hip] at hb
        simp at hb
      · rw [hip] at hb
        simp only [Option.some_bind] at hb
        rcases hfr : lexFrac cs2 with _ | ⟨frac, cs3⟩
        · rw [hfr] at hb
          simp at hb
        · rw [hfr] at hb
          simp only [Option.some_bind] at hb
          rcases hexp : lexExp cs3 with _ | ⟨ex, cs4⟩
          · rw [hexp] at hb
            simp at hb
          · rw [hexp] at hb
            simp only [Option.some_bind] at hb
            obtain ⟨he, _⟩ := Prod.mk.injEq .. ▸ Option.some_inj.mp hb
            obtain ⟨hne, hall, hlead⟩ := lexIntPart_wf hip
            rw [← he, Json.wf, numWF]
            simp only [Bool.and_eq_true]
            refine ⟨⟨⟨⟨by simpa using hne, hall⟩, ?_⟩, lexFrac_wf hfr⟩, lexExp_wf hexp⟩
            rcases hip2 : ip with _ | ⟨d, ds⟩
            · exact absurd hip2 hne
            · by_cases hd0 : d = Char.ofNat 48
              · rw [ipLeadOK, hlead d ds hip2 hd0, hd0]
                decide
              · simp [ipLeadOK, hd0]
    by_cases hm : c = minusC
    · rw [if_pos hm] at h
      exact hbody true cs h
    · rw [if_neg hm] at h
      exact hbody false (c :: cs) h

/-- All field values are well formed (keys may still repeat, as in a
pair list accumulated before the dict fold). -/
def fieldsValsWF (fs : List (List Char × Json)) : Bool :=
  fs.all fun kv => kv.2.wf

theorem jsonListWF_append {a b : List Json} (ha : jsonListWF a = true)
    (hb : jsonListWF b = true) : jsonListWF (a ++ b) = true := by
  induction a with
  | nil => simpa using hb
  | cons e es ih =>
    rw [jsonListWF, Bool.and_eq_true] at ha
    rw [List.cons_append, jsonListWF, Bool.and_eq_true]
    exact ⟨ha.1, ih ha.2⟩

theorem fieldsValsWF_append {a b : List (List Char × Json)} (ha : fieldsValsWF a = true)
    (hb : fieldsValsWF b = true) : fieldsValsWF (a ++ b) = true := by
  rw [fieldsValsWF] at *
  rw [List.all_append, Bool.and_eq_true]
  exact ⟨ha, hb⟩

theorem insertPair_wf {fs : List (List Char × Json)} {k : List Char} {v : Json}
    (hfs : jsonFieldsWF fs = true) (hv : v.wf = true) :
    jsonFieldsWF (insertPair fs k v) = true := by
  induction fs with
  | nil => simp [insertPair, jsonFieldsWF, hasKey, hv]
  | cons f rest ih =>
    obtain ⟨k', v'⟩ := f
    rw [jsonFieldsWF, Bool.and_eq_true, Bool.and_eq_true] at hfs
    obtain ⟨⟨hk', hv'⟩, hrest⟩ := hfs
    rw [insertPair]
    by_cases hkk : k' = k
    · rw [if_pos hkk, jsonFieldsWF, Bool.and_eq_true, Bool.and_eq_true]
      exact ⟨⟨hk', hv⟩, hrest⟩
    · rw [if_neg hkk, jsonFieldsWF, Bool.and_eq_true, Bool.and_eq_true]
      refine ⟨⟨?_, hv'⟩, ih hrest⟩
      have hkey : ∀ gs : List (List Char × Json), hasKey gs k' = false →
          hasKey (insertPair gs k v) k' = false := by
        intro gs
        induction gs with
        | nil =>
          intro _
          have hne : ¬k = k' := fun hcon => hkk hcon.symm
          simp [insertPair, hasKey, hne]
        | cons g grest gih =>
          obtain ⟨kg, vg⟩ := g
          intro hg
          rw [hasKey, Bool.or_eq_false_iff] at hg
          rw [insertPair]
          by_cases hgk : kg = k
          · rw [if_pos hgk, hasKey, Bool.or_eq_false_iff]
            exact ⟨hg.1, hg.2⟩
          · rw [if_neg hgk, hasKey, Bool.or_eq_false_iff]
            exact ⟨hg.1, gih hg.2⟩
      simpa using hkey rest (by simpa using hk')

theorem dedupFields_wf {fs : List (List Char × Json)} (h : fieldsValsWF fs = true) :
    jsonFieldsWF (dedupFields fs) = true := by
  rw [dedupFields]
  have haux : ∀ acc, jsonFieldsWF acc = true →
      jsonFieldsWF (fs.foldl (fun acc kv => insertPair acc kv.1 kv.2) acc) = true := by
    induction fs with
    | nil => intro acc hacc; simpa using hacc
    | cons f rest ih =>
      obtain ⟨k, v⟩ := f
      rw [fieldsValsWF, List.all_cons, Bool.and_eq_true] at h
      intro acc hacc
      rw [List.foldl_cons]
      exact ih h.2 _ (insertPair_wf hacc h.1)
  exact haux [] rfl

theorem parseLitNull_wf {cs : List Char} {v : Json} {r : List Char}
    (h : parseLitNull cs = some (v, r)) : v.wf = true := by
  rcases cs with _ | ⟨a, _ | ⟨b, _ | ⟨c, t⟩⟩⟩
  · simp [parseLitNull] at h
  · simp [parseLitNull] at h
  · simp [parseLitNull] at h
  · rw [parseLitNull] at h
    by_cases hc : (a = 'u' && b = 'l' && c = 'l') = true
    · rw [if_pos hc] at h
      obtain ⟨he, _⟩ := Prod.mk.injEq .. ▸ Option.some_inj.mp h
      rw [← he]
      rfl
    · rw [if_neg hc] at h
      simp at h

theorem parseLitTrue_wf {cs : List Char} {v : Json} {r : List Char}
    (h : parseLitTrue cs = some (v, r)) : v.wf = true := by
  rcases cs with _ | ⟨a, _ | ⟨b, _ | ⟨c, t⟩⟩⟩
  · simp [parseLitTrue] at h
  · simp [parseLitTrue] at h
  · simp [parseLitTrue] at h
  · rw [parseLitTrue] at h
    by_cases hc : (a = 'r' && b = 'u' && c = 'e') = true
    · rw [if_pos hc] at h
      obtain ⟨he, _⟩ := Prod.mk.injEq .. ▸ Option.some_inj.mp h
      rw [← he]
      rfl
    · rw [if_neg hc] at h
      simp at h

theorem parseLitFalse_wf {cs : List Char} {v : Json} {r : List Char}
    (h : parseLitFalse cs = some (v, r)) : v.wf = true := by
  rcases cs with _ | ⟨a, _ | ⟨b, _ | ⟨c, _ | ⟨d, t⟩⟩⟩⟩
  · simp [parseLitFalse] at h
  · simp [parseLitFalse] at h
  · simp [parseLitFalse] at h
  · simp [parseLitFalse] at h
  · rw [parseLitFalse] at h
    by_cases hc : (a = 'a' && b = 'l' && c = 's' && d = 'e') = true
    · rw [if_pos hc] at h
      obtain ⟨he, _⟩ := Prod.mk.injEq .. ▸ Option.some_inj.mp h
      rw [← he]
      rfl
    · rw [if_neg hc] at h
      simp at h

theorem parseLitNaN_wf {cs : List Char} {v : Json} {r : List Char}
    (h : parseLitNaN cs = some (v, r)) : v.wf = true := by
  rw [parseLitNaN] at h
  rcases he : expectChars ['a', 'N'] cs with _ | r2 <;> rw [he] at h
  · simp at h
  · simp only [Option.some_bind] at h
    obtain ⟨hv, _⟩ := Prod.mk.injEq .. ▸ Option.some_inj.mp h
    rw [← hv]
    rfl

theorem parseLitInfinity_wf {cs : List Char} {v : Json} {r : List Char}
    (h : parseLitInfinity cs = some (v, r)) : v.wf = true := by
  rw [parseLitInfinity] at h
  rcases he : expectChars ['n', 'f', 'i', 'n', 'i', 't', 'y'] cs with _ | r2 <;>
    rw [he] at h
  · simp at h
  · simp only [Option.some_bind] at h
    obtain ⟨hv, _⟩ := Prod.mk.injEq .. ▸ Option.some_inj.mp h
    rw [← hv]
    rfl

theorem parseLitNegInfinity_wf {cs : List Char} {v : Json} {r : List Char}
    (h : parseLitNegInfinity cs = some (v, r)) : v.wf = true := by
  rw [parseLitNegInfinity] at h
  rcases he : expectChars ['I', 'n', 'f', 'i', 'n', 'i', 't', 'y'] cs with _ | r2 <;>
    rw [he] at h
  · simp at h
  · simp only [Option.some_bind] at h
    obtain ⟨hv, _⟩ := Prod.mk.injEq .. ▸ Option.some_inj.mp h
    rw [← hv]
    rfl

theorem parse_wf : ∀ fuel : Nat,
    (∀ cs v r, parseVal fuel cs = some (v, r) → v.wf = true) ∧
    (∀ cs v r, parseValCore fuel cs = some (v, r) → v.wf = true) ∧
    (∀ cs v r, parseArrStart fuel cs = some (v, r) → v.wf = true) ∧
    (∀ acc cs v r, jsonListWF acc = true →
      parseArrTail fuel acc cs = some (v, r) → v.wf = true) ∧
    (∀ acc cs v r, jsonListWF acc = true →
      parseArrSep fuel acc cs = some (v, r) → v.wf = true) ∧
    (∀ cs v r, parseObjStart fuel cs = some (v, r) → v.wf = true) ∧
    (∀ acc k cs v r, fieldsValsWF acc = true →
      parseFieldRest fuel acc k cs = some (v, r) → v.wf = true) ∧
    (∀ acc k cs v r, fieldsValsWF acc = true →
      parseFieldColon fuel acc k cs = some (v, r) → v.wf = true) ∧
    (∀ acc cs v r, fieldsValsWF acc = true →
      parseObjTail fuel acc cs = some (v, r) → v.wf = true) ∧
    (∀ acc cs v r, fieldsValsWF acc = true →
      parseObjSep fuel acc cs = some (v, r) → v.wf = true) ∧
    (∀ acc cs v r, fieldsValsWF acc = true →
      parseObjKey fuel acc cs = some (v, r) → v.wf = true) := by
  intro fuel
  induction fuel with
  | zero =>
    refine ⟨fun cs v r h => ?_, fun cs v r h => ?_, fun cs v r h => ?_,
      fun acc cs v r _ h => ?_, fun acc cs v r _ h => ?_, fun cs v r h => ?_,
      fun acc k cs v r _ h => ?_, fun acc k cs v r _ h => ?_, fun acc cs v r _ h => ?_,
      fun acc cs v r _ h => ?_, fun acc cs v r _ h => ?_⟩ <;>
      simp [parseVal, parseValCore, parseArrStart, parseArrTail, parseArrSep, parseObjStart,
        parseFieldRest, parseFieldColon, parseObjTail, parseObjSep, parseObjKey] at h
  | succ f ih =>
    obtain ⟨ihV, ihC, ihAS, ihAT, ihASp, ihOS, ihFR, ihFC, ihOT, ihOSp, ihOK⟩ := ih
    have strStep : ∀ (rest : List Char) (v : Json) (r : List Char),
        ((parseStrBody rest).bind fun pr => some (Json.str pr.1, pr.2)) = some (v, r) →
          v.wf = true := by
      intro rest v r h
      rcases hsb : parseStrBody rest with _ | ⟨s, r2⟩
      · rw [hsb] at h
        simp at h
      · rw [hsb] at h
        simp only [Option.some_bind] at h
        obtain ⟨he, _⟩ := Prod.mk.injEq .. ▸ Option.some_inj.mp h
        rw [← he]
        rfl
    refine ⟨?_, ?_, ?_, ?_, ?_, ?_, ?_, ?_, ?_, ?_, ?_⟩
    · intro cs v r h
      rw [parseVal] at h
      exact ihC _ _ _ h
    · intro cs v r h
      rcases cs with _ | ⟨c, rest⟩
      · rw [parseValCore] at h
        simp at h
      · rw [parseValCore] at h
        split_ifs at h with h1 h2 h3 h4 h5 h6 h7 h8 h9 h10
        · exact parseLitNull_wf h
        · exact parseLitTrue_wf h
        · exact parseLitFalse_wf h
        · exact strStep _ _ _ h
        · exact ihAS _ _ _ h
        · exact ihOS _ _ _ h
        · rcases hlx : lexNum (c :: rest) with _ | pr <;> rw [hlx] at h
          · simp only [] at h
            exact parseLitNegInfinity_wf h
          · simp only [] at h
            obtain rfl := Option.some_inj.mp h
            exact lexNum_wf hlx
        · rcases hlx : lexNum (c :: rest) with _ | pr <;> rw [hlx] at h
          · simp at h
          · simp only [] at h
            obtain rfl := Option.some_inj.mp h
            exact lexNum_wf hlx
        · exact parseLitNaN_wf h
        · exact parseLitInfinity_wf h
    · intro cs v r h
      rcases cs with _ | ⟨c2, r2⟩
      · rw [parseArrStart] at h
        simp at h
      · rw [parseArrStart] at h
        split_ifs at h with h1
        · obtain ⟨he, _⟩ := Prod.mk.injEq .. ▸ Option.some_inj.mp h
          rw [← he]
          rfl
        · rcases hpv : parseVal f (c2 :: r2) with _ | pv
          · rw [hpv] at h
            simp at h
          · rw [hpv] at h
            simp only [Option.some_bind] at h
            refine ihAT [pv.1] _ _ _ ?_ h
            rw [jsonListWF, jsonListWF, Bool.and_eq_true]
            exact ⟨ihV _ pv.1 pv.2 hpv, rfl⟩
    · intro acc cs v r hacc h
      rw [parseArrTail] at h
      exact ihASp _ _ _ _ hacc h
    · intro acc cs v r hacc h
      rcases cs with _ | ⟨c, rest⟩
      · rw [parseArrSep] at h
        simp at h
      · rw [parseArrSep] at h
        split_ifs at h with h1 h2
        · rcases hpv : parseVal f rest with _ | pv
          · rw [hpv] at h
            simp at h
          · rw [hpv] at h
            simp only [Option.some_bind] at h
            refine ihAT (acc ++ [pv.1]) _ _ _ ?_ h
            refine jsonListWF_append hacc ?_
            rw [jsonListWF, jsonListWF, Bool.and_eq_true]
            exact ⟨ihV _ pv.1 pv.2 hpv, rfl⟩
        · obtain ⟨he, _⟩ := Prod.mk.injEq .. ▸ Option.some_inj.mp h
          rw [← he, Json.wf]
          exact hacc
    · intro cs v r h
      rcases cs with _ | ⟨c2, r2⟩
      · rw [parseObjStart] at h
        simp at h
      · rw [parseObjStart] at h
        split_ifs at h with h1 h2
        · obtain ⟨he, _⟩ := Prod.mk.injEq .. ▸ Option.some_inj.mp h
          rw [← he]
          rfl
        · rcases hpk : parseStrBody r2 with _ | pk
          · rw [hpk] at h
            simp at h
          · rw [hpk] at h
            simp only [Option.some_bind] at h
            exact ihFR [] pk.1 pk.2 _ _ rfl h
    · intro acc k cs v r hacc h
      rw [parseFieldRest] at h
      exact ihFC _ _ _ _ _ hacc h
    · intro acc k cs v r hacc h
      rcases cs with _ | ⟨c3, r4⟩
      · rw [parseFieldColon] at h
        simp at h
      · rw [parseFieldColon] at h
        split_ifs at h with h1
        · rcases hpv : parseVal f r4 with _ | pv
          · rw [hpv] at h
            simp at h
          · rw [hpv] at h
            simp only [Option.some_bind] at h
            refine ihOT (acc ++ [(k, pv.1)]) _ _ _ ?_ h
            refine fieldsValsWF_append hacc ?_
            rw [fieldsValsWF, List.all_cons, Bool.and_eq_true]
            exact ⟨ihV _ pv.1 pv.2 hpv, rfl⟩
    · intro acc cs v r hacc h
      rw [parseObjTail] at h
      exact ihOSp _ _ _ _ hacc h
    · intro acc cs v r hacc h
      rcases cs with _ | ⟨c, rest⟩
      · rw [parseObjSep] at h
        simp at h
      · rw [parseObjSep] at h
        split_ifs at h with h1 h2
        · exact ihOK _ _ _ _ hacc h
        · obtain ⟨he, _⟩ := Prod.mk.injEq .. ▸ Option.some_inj.mp h
          rw [← he, Json.wf]
          exact dedupFields_wf hacc
    · intro acc cs v r hacc h
      rcases cs with _ | ⟨c2, r2⟩
      · rw [parseObjKey] at h
        simp at h
      · rw [parseObjKey] at h
        split_ifs at h with h1
        · rcases hpk : parseStrBody r2 with _ | pk
          · rw [hpk] at h
            simp at h
          · rw [hpk] at h
            simp only [Option.some_bind] at h
            exact ihFR acc pk.1 pk.2 _ _ hacc h

/-- A value returned by `loads` is well formed: object keys are unique
(Python dict semantics) and number components follow the grammar. -/
theorem loads_wf {s : List Char} {v : Json} (h : loads s = some v) : v.wf = true := by
  rw [loads] at h
  rcases hp : parseVal (5 * s.length + 5) s with _ | pr
  · rw [hp] at h
    simp at h
  · rw [hp] at h
    simp only [Option.some_bind] at h
    by_cases hw : skipWs pr.2 = []
    · rw [if_pos hw] at h
      obtain rfl := Option.some_inj.mp h
      exact (parse_wf _).1 _ pr.1 pr.2 hp
    · rw [if_neg hw] at h
      simp at h

mutual

theorem ccost_le_dumps (v : Json) (hwf : v.wf = true) :
    Json.ccost v ≤ 5 * (dumpsVal v).length := by
  cases v with
  | null => simp [Json.ccost, dumpsVal]
  | bool b => cases b <;> simp [Json.ccost, dumpsVal]
  | str s =>
    rw [Json.ccost, dumpsVal, dumpsStr]
    simp only [List.length_cons, List.length_append]
    omega
  | num neg ip frac ex =>
    rw [Json.wf] at hwf
    obtain ⟨c, t, hct, _⟩ := @dumpsNum_head neg ip frac ex hwf
    rw [Json.ccost, dumpsVal, hct]
    simp only [List.length_cons]
    omega
  | nan => simp [Json.ccost, dumpsVal]
  | inf b => cases b <;> simp [Json.ccost, dumpsVal]
  | arr es =>
    cases es with
    | nil => simp [Json.ccost, lcostA, dumpsVal]
    | cons e es =>
      rw [Json.wf, jsonListWF, Bool.and_eq_true] at hwf
      have h1 := ccost_le_dumps e hwf.1
      have h2 := lcostA_le_dumps es hwf.2
      rw [Json.ccost, lcostA, dumpsVal]
      simp only [List.length_cons, List.length_append]
      omega
  | obj fs =>
    cases fs with
    | nil => simp [Json.ccost, ocostT, dumpsVal]
    | cons field fs =>
      obtain ⟨k, v⟩ := field
      rw [Json.wf, jsonFieldsWF, Bool.and_eq_true, Bool.and_eq_true] at hwf
      have h1 := ccost_le_dumps v hwf.1.2
      have h2 := ocostT_le_dumps fs hwf.2
      rw [Json.ccost, ocostT, dumpsVal, dumpsStr]
      simp only [List.length_cons, List.length_append]
      omega

theorem lcostA_le_dumps (es : List Json) (hwf : jsonListWF es = true) :
    lcostA es ≤ 5 * (dumpsArr es).length + 2 := by
  cases es with
  | nil => simp [lcostA, dumpsArr]
  | cons e es =>
    rw [jsonListWF, Bool.and_eq_true] at hwf
    have h1 := ccost_le_dumps e hwf.1
    have h2 := lcostA_le_dumps es hwf.2
    rw [lcostA, dumpsArr]
    simp only [List.length_cons, List.length_append]
    omega

theorem ocostT_le_dumps (fs : List (List Char × Json)) (hwf : jsonFieldsWF fs = true) :
    ocostT fs ≤ 5 * (dumpsObj fs).length + 2 := by
  cases fs with
  | nil => simp [ocostT, dumpsObj]
  | cons field fs =>
    obtain ⟨k, v⟩ := field
    rw [jsonFieldsWF, Bool.and_eq_true, Bool.and_eq_true] at hwf
    have h1 := ccost_le_dumps v hwf.1.2
    have h2 := ocostT_le_dumps fs hwf.2
    rw [ocostT, dumpsObj, dumpsStr]
    simp only [List.length_cons, List.length_append]
    omega

end

/-- The parser inverts the serializer on any well-formed value. -/
theorem loads_dumps {v : Json} (hwf : v.wf = true) : loads (dumps v) = some v := by
  rw [loads, dumps]
  have hskip : skipWs (dumpsVal v) = dumpsVal v := by
    have hws := skipWs_dumpsVal v hwf []
    rwa [List.append_nil] at hws
  have hcost : Json.ccost v ≤ 5 * (dumpsVal v).length + 4 :=
    le_trans (ccost_le_dumps v hwf) (by omega)
  have hcore := parseValCore_dumps v hwf (5 * (dumpsVal v).length + 4) [] hcost trivial
  rw [List.append_nil] at hcore
  rw [show 5 * (dumpsVal v).length + 5 = (5 * (dumpsVal v).length + 4) + 1 from rfl,
    parseVal, hskip, hcore]
  simp [skipWs]

/-! ## UTF-8 decoding (model of Python `bytes.decode()`, strict) -/

/-- Strict UTF-8 decoding of a byte sequence: rejects truncated
sequences, stray continuation bytes, overlong encodings, surrogates and
out-of-range lead bytes, as Python's default `errors='strict'` does. -/
def utf8Decode? : List Nat → Option (List Char)
  | [] => some []
  | b :: bs =>
    if b < 128 then (utf8Decode? bs).map fun s => Char.ofNat b :: s
    else if b < 194 then none
    else if b < 224 then
      match bs with
      | b2 :: bs2 =>
        if 128 ≤ b2 && b2 < 192 then
          (utf8Decode? bs2).map fun s => Char.ofNat ((b - 192) * 64 + (b2 - 128)) :: s
        else none
      | [] => none
    else if b < 240 then
      match bs with
      | b2 :: b3 :: bs2 =>
        if (if b = 224 then 160 ≤ b2 && b2 < 192
            else if b = 237 then 128 ≤ b2 && b2 < 160
            else 128 ≤ b2 && b2 < 192) && (128 ≤ b3 && b3 < 192) then
          (utf8Decode? bs2).map fun s =>
            Char.ofNat ((b - 224) * 4096 + (b2 - 128) * 64 + (b3 - 128)) :: s
        else none
      | _ => none
    else if b < 245 then
      match bs with
      | b2 :: b3 :: b4 :: bs2 =>
        if (if b = 240 then 144 ≤ b2 && b2 < 192
            else if b = 244 then 128 ≤ b2 && b2 < 144
            else 128 ≤ b2 && b2 < 192) && (128 ≤ b3 && b3 < 192) &&
            (128 ≤ b4 && b4 < 192) then
          (utf8Decode? bs2).map fun s =>
            Char.ofNat ((b - 240) * 262144 + (b2 - 128) * 4096 + (b3 - 128) * 64 + (b4 - 128)) :: s
        else none
      | _ => none
    else none

/-- Lexicographic order on strings by code point, as Python compares
`str` values; ISO-8601 UTC timestamps compare chronologically under it. -/
def listCharLe : List Char → List Char → Bool
  | [], _ => true
  | c :: cs, d :: ds => if c = d then listCharLe cs ds else decide (c.toNat < d.toNat)
  | _ :: _, [] => false

/-! ## Enrichment worker (azure_foundry_reasoner.py `on_message`) -/

/-- Outcome of the Azure agent run as seen by `analyze_image`
(lines 139-239): an exception inside the try block, a run that ends in
status failed, or an agent response (possibly empty). -/
inductive AnalyzeOutcome where
  | raises (msg : List Char)
  | runFailed (lastError : List Char)
  | responds (text : List Char)

/-- Model of `analyze_image`: returns the agent's text, or embeds the
failure into the returned string — it never raises (lines 200-239). -/
def analyze_image : AnalyzeOutcome → List Char
  | .raises m => ("Image analysis failed: ".data) ++ m
  | .runFailed e => ("Agent run failed: ".data) ++ e
  | .responds t => if t.isEmpty then "No analysis response received from agent".data else t

/-- The worker's enriched message (lines 325-331): Python dict-literal
merge `{**data, "reasoning": ..., "model_used": ..., "agent_id": ...,
"analyzed_at": ...}` — existing keys are overwritten in place, new keys
appended in this order. -/
def enrichedFields (data : List (List Char × Json)) (reasoning : List Char)
    (agentId : List Char) (analyzedAt : List Char) : List (List Char × Json) :=
  insertPair (insertPair (insertPair (insertPair data
    ("reasoning".data) (.str reasoning))
    ("model_used".data) (.str ("azure_foundry_agent".data)))
    ("agent_id".data) (.str agentId))
    ("analyzed_at".data) (.str analyzedAt)

/-- The observable effects of one worker callback run. `published`
lists the JSON objects handed to `client.publish` on the output topic;
`caught` records that the callback's outer `except` block ran. -/
structure WorkerResult where
  published : List Json
  analyzeCalls : Nat
  dropLogs : Nat
  caught : Bool

/-- Python truthiness of a JSON value, for `if not img_path` (line 303).
A number is falsy when its value is zero (all-zero digits). -/
def pyFalsy : Json → Bool
  | .null => true
  | .bool b => !b
  | .str s => s.isEmpty
  | .arr es => es.isEmpty
  | .obj fs => fs.isEmpty
  | .nan => false
  | .inf _ => false
  | .num _ ip frac _ =>
    ip.all (fun c => c = Char.ofNat 48) && frac.all (fun c => c = Char.ofNat 48)

/-- Analysis, sanitization, merge, JSON validation and publish
(lines 309-358): the reasoning call happens exactly once; the enriched
dict is serialized and reparsed before publishing, and the publish
outcome (success, error code or exception) only affects logging. -/
def workerEnrich (outcome : AnalyzeOutcome) (agentId nowIso : List Char)
    (fields : List (List Char × Json)) : WorkerResult :=
  if (loads (dumps (.obj (enrichedFields fields
      (sanitizeReasoning (analyze_image outcome)) agentId nowIso)))).isSome then
    ⟨[.obj (enrichedFields fields (sanitizeReasoning (analyze_image outcome))
      agentId nowIso)], 1, 0, false⟩
  else ⟨[], 1, 0, false⟩

/-- The `image_path` check of lines 302-305: a falsy or missing value
and a nonexistent path are logged and dropped; a truthy non-string
makes `os.path.exists` raise TypeError into the outer handler. (A bool
or int would be treated as a file descriptor by Python; the model folds
that exotic case into the exception path as well.) -/
def workerOnPath (fsExists : List Char → Bool) (outcome : AnalyzeOutcome)
    (agentId nowIso : List Char) (fields : List (List Char × Json)) :
    Option Json → Except (List Char) WorkerResult
  | none => .ok ⟨[], 0, 1, false⟩
  | some (.str p) =>
    if p.isEmpty then .ok ⟨[], 0, 1, false⟩
    else if fsExists p then .ok (workerEnrich outcome agentId nowIso fields)
    else .ok ⟨[], 0, 1, false⟩
  | some .null => .ok ⟨[], 0, 1, false⟩
  | some (.bool b) =>
    if b then .error ("TypeError: os.path.exists".data) else .ok ⟨[], 0, 1, false⟩
  | some (.num neg ip frac ex) =>
    if pyFalsy (.num neg ip frac ex) then .ok ⟨[], 0, 1, false⟩
    else .error ("TypeError: os.path.exists".data)
  | some .nan => .error ("TypeError: os.path.exists".data)
  | some (.inf _) => .error ("TypeError: os.path.exists".data)
  | some (.arr es) =>
    if es.isEmpty then .ok ⟨[], 0, 1, false⟩ else .error ("TypeError: os.path.exists".data)
  | some (.obj fs) =>
    if fs.isEmpty then .ok ⟨[], 0, 1, false⟩ else .error ("TypeError: os.path.exists".data)

/-- The body of the worker's try block (lines 300-358): decode the
payload, parse it as JSON, look up `image_path` and proceed. An
`Except.error` is an exception reaching the outer handler. -/
def workerBody (fsExists : List Char → Bool) (outcome : AnalyzeOutcome)
    (agentId nowIso : List Char) (payload : List Nat) :
    Except (List Char) WorkerResult :=
  match utf8Decode? payload with
  | none => .error ("UnicodeDecodeError".data)
  | some text =>
    match loads text with
    | none => .error ("JSONDecodeError".data)
    | some (.obj fields) =>
      workerOnPath fsExists outcome agentId nowIso fields
        (getField fields ("image_path".data))
    | some _ => .error ("AttributeError: get".data)

/-- The worker's `except` block (lines 360-363) formats the exception
and prints a traceback; neither can raise, so it always completes. -/
def workerExceptBlock (_e : List Char) : Except (List Char) WorkerResult :=
  .ok ⟨[], 0, 0, true⟩

/-- Model of the worker's `on_message` callback (lines 292-363): the
try body, with every escaped exception routed to the except block. -/
def workerOnMessage (fsExists : List Char → Bool) (outcome : AnalyzeOutcome)
    (agentId nowIso : List Char) (payload : List Nat) :
    Except (List Char) WorkerResult :=
  match workerBody fsExists outcome agentId nowIso payload with
  | .ok r => .ok r
  | .error e => workerExceptBlock e

/-- An `Except` value that did not propagate an exception. -/
def exceptOk {ε α : Type} : Except ε α → Bool
  | .ok _ => true
  | .error _ => false

/-- The reasoning string the worker merges into the event: the analysis
result (or embedded failure string) after sanitization. -/
def workerReasoning (outcome : AnalyzeOutcome) : List Char :=
  sanitizeReasoning (analyze_image outcome)

/-! ### Field lookup through dict assignment -/

theorem getField_insertPair_self (fs : List (List Char × Json)) (k : List Char) (v : Json) :
    getField (insertPair fs k v) k = some v := by
  induction fs with
  | nil => simp [insertPair, getField]
  | cons f rest ih =>
    obtain ⟨k', v'⟩ := f
    rw [insertPair]
    by_cases hk : k' = k
    · rw [if_pos hk, getField, if_pos hk]
    · rw [if_neg hk, getField, if_neg hk, ih]

theorem getField_insertPair_other {k q : List Char} (hne : q ≠ k)
    (fs : List (List Char × Json)) (v : Json) :
    getField (insertPair fs k v) q = getField fs q := by
  induction fs with
  | nil =>
    simp [insertPair, getField, Ne.symm hne]
  | cons f rest ih =>
    obtain ⟨k', v'⟩ := f
    rw [insertPair]
    by_cases hk : k' = k
    · rw [if_pos hk, getField, getField]
      by_cases hq : k' = q
      · exact absurd (hq.symm.trans hk) hne
      · rw [if_neg hq, if_neg hq]
    · rw [if_neg hk, getField, getField]
      by_cases hq : k' = q
      · rw [if_pos hq, if_pos hq]
      · rw [if_neg hq, if_neg hq, ih]

theorem hasKey_eq_keys (fs : List (List Char × Json)) (q : List Char) :
    hasKey fs q = (fieldKeys fs).any fun x => x = q := by
  induction fs with
  | nil => rfl
  | cons f rest ih =>
    obtain ⟨k', v'⟩ := f
    rw [hasKey, ih]
    simp [fieldKeys]

theorem fieldKeys_insertPair (fs : List (List Char × Json)) (k : List Char) (v : Json) :
    fieldKeys (insertPair fs k v) =
      if hasKey fs k then fieldKeys fs else fieldKeys fs ++ [k] := by
  induction fs with
  | nil => simp [insertPair, hasKey, fieldKeys]
  | cons f rest ih =>
    obtain ⟨k', v'⟩ := f
    rw [insertPair, hasKey]
    by_cases hk : k' = k
    · rw [if_pos hk]
      simp [hk, fieldKeys]
    · rw [if_neg hk]
      by_cases hh : hasKey rest k
      · simp [fieldKeys, hk, hh] at *
        exact ih
      · simp [fieldKeys, hk, hh] at *
        exact ih

theorem fieldKeys_insertPair_congr {a b : List (List Char × Json)}
    (h : fieldKeys a = fieldKeys b) (k : List Char) (v w : Json) :
    fieldKeys (insertPair a k v) = fieldKeys (insertPair b k w) := by
  rw [fieldKeys_insertPair, fieldKeys_insertPair, hasKey_eq_keys, hasKey_eq_keys, h]

/-! ### The enriched event's fields -/

theorem getField_enriched_analyzed (fields : List (List Char × Json))
    (r a n : List Char) :
    getField (enrichedFields fields r a n) ("analyzed_at".data) = some (.str n) := by
  rw [enrichedFields, getField_insertPair_self]

theorem getField_enriched_agent (fields : List (List Char × Json)) (r a n : List Char) :
    getField (enrichedFields fields r a n) ("agent_id".data) = some (.str a) := by
  rw [enrichedFields, getField_insertPair_other (by decide), getField_insertPair_self]

theorem getField_enriched_model (fields : List (List Char × Json)) (r a n : List Char) :
    getField (enrichedFields fields r a n) ("model_used".data) =
      some (.str ("azure_foundry_agent".data)) := by
  rw [enrichedFields, getField_insertPair_other (by decide),
    getField_insertPair_other (by decide), getField_insertPair_self]

theorem getField_enriched_reasoning (fields : List (List Char × Json))
    (r a n : List Char) :
    getField (enrichedFields fields r a n) ("reasoning".data) = some (.str r) := by
  rw [enrichedFields, getField_insertPair_other (by decide),
    getField_insertPair_other (by decide), getField_insertPair_other (by decide),
    getField_insertPair_self]

theorem getField_enriched_preserved {k : List Char}
    (h1 : k ≠ "reasoning".data) (h2 : k ≠ "model_used".data)
    (h3 : k ≠ "agent_id".data) (h4 : k ≠ "analyzed_at".data)
    (fields : List (List Char × Json)) (r a n : List Char) :
    getField (enrichedFields fields r a n) k = getField fields k := by
  rw [enrichedFields, getField_insertPair_other h4, getField_insertPair_other h3,
    getField_insertPair_other h2, getField_insertPair_other h1]

theorem fieldKeys_enriched_indep (fields : List (List Char × Json))
    (r r' a n : List Char) :
    fieldKeys (enrichedFields fields r a n) = fieldKeys (enrichedFields fields r' a n) := by
  rw [enrichedFields, enrichedFields]
  exact fieldKeys_insertPair_congr (fieldKeys_insertPair_congr
    (fieldKeys_insertPair_congr (fieldKeys_insertPair_congr rfl _ _ _) _ _ _) _ _ _) _ _ _

theorem enrichedFields_wf {fields : List (List Char × Json)}
    (h : jsonFieldsWF fields = true) (r a n : List Char) :
    jsonFieldsWF (enrichedFields fields r a n) = true := by
  rw [enrichedFields]
  exact insertPair_wf (insertPair_wf (insertPair_wf (insertPair_wf h rfl) rfl) rfl) rfl

/-! ### Reduction of the worker on the happy path -/

theorem workerEnrich_eq {fields : List (List Char × Json)}
    (hfw : jsonFieldsWF fields = true) (outcome : AnalyzeOutcome)
    (agentId nowIso : List Char) :
    workerEnrich outcome agentId nowIso fields =
      ⟨[.obj (enrichedFields fields (workerReasoning outcome) agentId nowIso)],
        1, 0, false⟩ := by
  have hwf : (Json.obj (enrichedFields fields
      (sanitizeReasoning (analyze_image outcome)) agentId nowIso)).wf = true := by
    rw [Json.wf]
    exact enrichedFields_wf hfw _ _ _
  rw [workerEnrich, workerReasoning, loads_dumps hwf]
  rfl

theorem workerOnMessage_run {fsExists : List Char → Bool} {outcome : AnalyzeOutcome}
    {agentId nowIso : List Char} {payload : List Nat} {text : List Char}
    {fields : List (List Char × Json)} {p : List Char}
    (hdec : utf8Decode? payload = some text)
    (hload : loads text = some (.obj fields))
    (himg : getField fields ("image_path".data) = some (.str p))
    (hne : p.isEmpty = false) (hfs : fsExists p = true) :
    workerOnMessage fsExists outcome agentId nowIso payload =
      .ok ⟨[.obj (enrichedFields fields (workerReasoning outcome) agentId nowIso)],
        1, 0, false⟩ := by
  have hfw : jsonFieldsWF fields = true := by
    have h := loads_wf hload
    rw [Json.wf] at h
    exact h
  have hbody : workerBody fsExists outcome agentId nowIso payload =
      .ok ⟨[.obj (enrichedFields fields (workerReasoning outcome) agentId nowIso)],
        1, 0, false⟩ := by
    rw [workerBody, hdec]
    simp only []
    rw [hload]
    simp only []
    rw [himg, workerOnPath, if_neg (by simp [hne]), if_pos hfs,
      workerEnrich_eq hfw outcome agentId nowIso]
  rw [workerOnMessage, hbody]

/-! ### A concrete detection event, for exercising the worker -/

/-- Fields of a minimal detection event. -/
def sampleFields : List (List Char × Json) :=
  [("image_path".data, .str ("a.jpg".data)), ("timestamp".data, .str ("2".data))]

/-- Its JSON text, as the producer would serialize it. -/
def sampleText : List Char :=
  lbraceC :: ("\"image_path\": \"a.jpg\", \"timestamp\": \"2\"".data ++ [rbraceC])

/-- Its MQTT payload bytes (ASCII encoding of the JSON text). -/
def samplePayload : List Nat :=
  sampleText.map Char.toNat

/-- A filesystem on which exactly `a.jpg` exists. -/
def sampleExists : List Char → Bool :=
  fun p => p == "a.jpg".data

/-! ### Claims about the worker callback -/

/-- C1: for every detection event whose `image_path` names an existing
file, the worker callback publishes exactly one enriched event; that
event keeps every field of the original event (under the original
key-value binding, for every key other than the four enrichment keys),
adds `reasoning`, `model_used`, `agent_id` and `analyzed_at`, and —
under the hypothesis that the worker's clock reads no earlier than the
event's timestamp — satisfies `analyzed_at ≥ timestamp` in the
lexicographic (ISO-8601) string order. -/
theorem enrichment_publishes_one_complete_event
    {fsExists : List Char → Bool} (outcome : AnalyzeOutcome)
    {agentId nowIso : List Char} {payload : List Nat} {text tsE p : List Char}
    {fields : List (List Char × Json)}
    (hdec : utf8Decode? payload = some text)
    (hload : loads text = some (.obj fields))
    (himg : getField fields ("image_path".data) = some (.str p))
    (hne : p.isEmpty = false) (hfs : fsExists p = true)
    (hts : getField fields ("timestamp".data) = some (.str tsE))
    (hclock : listCharLe tsE nowIso = true) :
    workerOnMessage fsExists outcome agentId nowIso payload =
      .ok ⟨[.obj (enrichedFields fields (workerReasoning outcome) agentId nowIso)],
        1, 0, false⟩ ∧
    (∀ k v, getField fields k = some v →
      k ≠ "reasoning".data → k ≠ "model_used".data →
      k ≠ "agent_id".data → k ≠ "analyzed_at".data →
      getField (enrichedFields fields (workerReasoning outcome) agentId nowIso) k =
        some v) ∧
    getField (enrichedFields fields (workerReasoning outcome) agentId nowIso)
      ("reasoning".data) = some (.str (workerReasoning outcome)) ∧
    getField (enrichedFields fields (workerReasoning outcome) agentId nowIso)
      ("model_used".data) = some (.str ("azure_foundry_agent".data)) ∧
    getField (enrichedFields fields (workerReasoning outcome) agentId nowIso)
      ("agent_id".data) = some (.str agentId) ∧
    getField (enrichedFields fields (workerReasoning outcome) agentId nowIso)
      ("analyzed_at".data) = some (.str nowIso) ∧
    getField (enrichedFields fields (workerReasoning outcome) agentId nowIso)
      ("timestamp".data) = some (.str tsE) ∧
    listCharLe tsE nowIso = true := by
  refine ⟨workerOnMessage_run hdec hload himg hne hfs, ?_,
    getField_enriched_reasoning _ _ _ _, getField_enriched_model _ _ _ _,
    getField_enriched_agent _ _ _ _, getField_enriched_analyzed _ _ _ _, ?_, hclock⟩
  · intro k v hv h1 h2 h3 h4
    rw [getField_enriched_preserved h1 h2 h3 h4]
    exact hv
  · rw [getField_enriched_preserved (by decide) (by decide) (by decide) (by decide)]
    exact hts

theorem enrichment_publishes_one_complete_event_wit :
    workerOnMessage sampleExists (.responds ("ok".data)) ("agent-1".data) ("3".data)
      samplePayload =
      .ok ⟨[.obj (enrichedFields sampleFields (workerReasoning (.responds ("ok".data)))
        ("agent-1".data) ("3".data))], 1, 0, false⟩ ∧
    (∀ k v, getField sampleFields k = some v →
      k ≠ "reasoning".data → k ≠ "model_used".data →
      k ≠ "agent_id".data → k ≠ "analyzed_at".data →
      getField (enrichedFields sampleFields (workerReasoning (.responds ("ok".data)))
        ("agent-1".data) ("3".data)) k = some v) ∧
    getField (enrichedFields sampleFields (workerReasoning (.responds ("ok".data)))
      ("agent-1".data) ("3".data)) ("reasoning".data) =
      some (.str (workerReasoning (.responds ("ok".data)))) ∧
    getField (enrichedFields sampleFields (workerReasoning (.responds ("ok".data)))
      ("agent-1".data) ("3".data)) ("model_used".data) =
      some (.str ("azure_foundry_agent".data)) ∧
    getField (enrichedFields sampleFields (workerReasoning (.responds ("ok".data)))
      ("agent-1".data) ("3".data)) ("agent_id".data) = some (.str ("agent-1".data)) ∧
    getField (enrichedFields sampleFields (workerReasoning (.responds ("ok".data)))
      ("agent-1".data) ("3".data)) ("analyzed_at".data) = some (.str ("3".data)) ∧
    getField (enrichedFields sampleFields (workerReasoning (.responds ("ok".data)))
      ("agent-1".data) ("3".data)) ("timestamp".data) = some (.str ("2".data)) ∧
    listCharLe ("2".data) ("3".data) = true :=
  enrichment_publishes_one_complete_event (.responds ("ok".data))
    (show utf8Decode? samplePayload = some sampleText from rfl)
    (show loads sampleText = some (.obj sampleFields) from rfl)
    (show getField sampleFields ("image_path".data) = some (.str ("a.jpg".data)) from rfl)
    (show ("a.jpg".data).isEmpty = false from rfl)
    (show sampleExists ("a.jpg".data) = true from rfl)
    (show getField sampleFields ("timestamp".data) = some (.str ("2".data)) from rfl)
    (show listCharLe ("2".data) ("3".data) = true by decide)

/-- C3: for every detection event whose `image_path` is unset, falsy,
or names a file that does not exist, the worker publishes zero events,
makes no reasoning call, and logs exactly one drop notice. -/
theorem missing_image_drops_event
    {fsExists : List Char → Bool} (outcome : AnalyzeOutcome)
    {agentId nowIso : List Char} {payload : List Nat} {text : List Char}
    {fields : List (List Char × Json)}
    (hdec : utf8Decode? payload = some text)
    (hload : loads text = some (.obj fields))
    (himg : getField fields ("image_path".data) = none ∨
      ∃ p, getField fields ("image_path".data) = some (.str p) ∧
        (p.isEmpty = true ∨ fsExists p = false)) :
    workerOnMessage fsExists outcome agentId nowIso payload = .ok ⟨[], 0, 1, false⟩ := by
  have hbody : workerBody fsExists outcome agentId nowIso payload =
      .ok ⟨[], 0, 1, false⟩ := by
    rw [workerBody, hdec]
    simp only []
    rw [hload]
    simp only []
    rcases himg with h | ⟨p, hp, hcase⟩
    · rw [h, workerOnPath]
    · rw [hp, workerOnPath]
      rcases hcase with he | hn
      · rw [if_pos he]
      · by_cases hemp : p.isEmpty = true
        · rw [if_pos hemp]
        · rw [if_neg hemp, if_neg (by simp [hn])]
  rw [workerOnMessage, hbody]

theorem missing_image_drops_event_wit :
    workerOnMessage (fun _ => false) (.responds ("ok".data)) ("agent-1".data)
      ("3".data) samplePayload = .ok ⟨[], 0, 1, false⟩ :=
  missing_image_drops_event (.responds ("ok".data))
    (show utf8Decode? samplePayload = some sampleText from rfl)
    (show loads sampleText = some (.obj sampleFields) from rfl)
    (Or.inr ⟨"a.jpg".data, rfl, Or.inr rfl⟩)

/-- C4: when the reasoning call fails — an exception during analysis or
a run ending in status failed — the worker still publishes exactly one
enriched event; its `reasoning` field holds the (sanitized) error
string, and the published object has exactly the same keys as it would
for any successful analysis: no field distinguishes failure. -/
theorem analysis_failure_embedded_in_schema
    {fsExists : List Char → Bool} {outcome : AnalyzeOutcome} {m : List Char}
    {agentId nowIso : List Char} {payload : List Nat} {text p : List Char}
    {fields : List (List Char × Json)}
    (hdec : utf8Decode? payload = some text)
    (hload : loads text = some (.obj fields))
    (himg : getField fields ("image_path".data) = some (.str p))
    (hne : p.isEmpty = false) (hfs : fsExists p = true)
    (hout : outcome = .raises m ∨ outcome = .runFailed m) :
    workerOnMessage fsExists outcome agentId nowIso payload =
      .ok ⟨[.obj (enrichedFields fields (workerReasoning outcome) agentId nowIso)],
        1, 0, false⟩ ∧
    getField (enrichedFields fields (workerReasoning outcome) agentId nowIso)
      ("reasoning".data) = some (.str (workerReasoning outcome)) ∧
    (analyze_image outcome = ("Image analysis failed: ".data) ++ m ∨
     analyze_image outcome = ("Agent run failed: ".data) ++ m) ∧
    (∀ t, fieldKeys (enrichedFields fields (workerReasoning outcome) agentId nowIso) =
      fieldKeys (enrichedFields fields (workerReasoning (.responds t))
        agentId nowIso)) := by
  refine ⟨workerOnMessage_run hdec hload himg hne hfs,
    getField_enriched_reasoning _ _ _ _, ?_,
    fun t => fieldKeys_enriched_indep _ _ _ _ _⟩
  rcases hout with h | h
  · subst h
    exact Or.inl rfl
  · subst h
    exact Or.inr rfl

theorem analysis_failure_embedded_in_schema_wit :
    workerOnMessage sampleExists (.raises ("boom".data)) ("agent-1".data) ("3".data)
      samplePayload =
      .ok ⟨[.obj (enrichedFields sampleFields (workerReasoning (.raises ("boom".data)))
        ("agent-1".data) ("3".data))], 1, 0, false⟩ ∧
    getField (enrichedFields sampleFields (workerReasoning (.raises ("boom".data)))
      ("agent-1".data) ("3".data)) ("reasoning".data) =
      some (.str (workerReasoning (.raises ("boom".data)))) ∧
    (analyze_image (.raises ("boom".data)) =
      ("Image analysis failed: ".data) ++ "boom".data ∨
     analyze_image (.raises ("boom".data)) =
      ("Agent run failed: ".data) ++ "boom".data) ∧
    (∀ t, fieldKeys (enrichedFields sampleFields
        (workerReasoning (.raises ("boom".data))) ("agent-1".data) ("3".data)) =
      fieldKeys (enrichedFields sampleFields (workerReasoning (.responds t))
        ("agent-1".data) ("3".data))) :=
  analysis_failure_embedded_in_schema
    (show utf8Decode? samplePayload = some sampleText from rfl)
    (show loads sampleText = some (.obj sampleFields) from rfl)
    (show getField sampleFields ("image_path".data) = some (.str ("a.jpg".data)) from rfl)
    (show ("a.jpg".data).isEmpty = false from rfl)
    (show sampleExists ("a.jpg".data) = true from rfl)
    (Or.inl rfl)

/-! ### Python equality of parsed values

The round-trip property compares two parses of the same serialized
payload with Python's `==`. Its one deviation from structural equality
here is NaN: `float('nan') == float('nan')` is false, so any payload
carrying a NaN — which `json.loads` accepts and `json.dumps` re-emits
by default — compares unequal to its own reparse. -/

mutual

/-- Python `==` on parsed JSON values, compared position by position.
NaN is never equal to anything, itself included; numbers compare by
lexeme (the pairs compared by the round-trip property come from
identical serialized text, where equal lexemes and Python float
equality coincide); dict fields are compared in parse order (Python's
dict `==` ignores key order, but two parses of the same text list
their keys identically, so the comparisons agree). -/
def pyEqJson : Json → Json → Bool
  | .null, .null => true
  | .bool a, .bool b => a = b
  | .num n1 i1 f1 e1, .num n2 i2 f2 e2 => n1 = n2 && i1 = i2 && f1 = f2 && e1 = e2
  | .nan, _ => false
  | .inf a, .inf b => a = b
  | .str a, .str b => a = b
  | .arr a, .arr b => pyEqList a b
  | .obj a, .obj b => pyEqFields a b
  | _, _ => false

/-- Elementwise Python equality of two lists. -/
def pyEqList : List Json → List Json → Bool
  | [], [] => true
  | a :: as, b :: bs => pyEqJson a b && pyEqList as bs
  | _, _ => false

/-- Pairwise Python equality of two field lists in order. -/
def pyEqFields : List (List Char × Json) → List (List Char × Json) → Bool
  | [], [] => true
  | (k1, v1) :: r1, (k2, v2) :: r2 => k1 = k2 && pyEqJson v1 v2 && pyEqFields r1 r2
  | _, _ => false

end

mutual

/-- The value contains no NaN anywhere (infinities are harmless:
`inf == inf` holds in Python). -/
def nanFree : Json → Bool
  | .null => true
  | .bool _ => true
  | .num _ _ _ _ => true
  | .nan => false
  | .inf _ => true
  | .str _ => true
  | .arr es => nanFreeList es
  | .obj fs => nanFreeFields fs

/-- No element contains a NaN. -/
def nanFreeList : List Json → Bool
  | [] => true
  | e :: es => nanFree e && nanFreeList es

/-- No field value contains a NaN. -/
def nanFreeFields : List (List Char × Json) → Bool
  | [] => true
  | (_, v) :: fs => nanFree v && nanFreeFields fs

end

mutual

theorem pyEqJson_refl (v : Json) (h : nanFree v = true) : pyEqJson v v = true := by
  cases v with
  | null => rfl
  | bool b => simp [pyEqJson]
  | num neg ip frac ex => simp [pyEqJson]
  | nan => simp [nanFree] at h
  | inf b => simp [pyEqJson]
  | str s => simp [pyEqJson]
  | arr es =>
    rw [nanFree] at h
    exact pyEqList_refl es h
  | obj fs =>
    rw [nanFree] at h
    exact pyEqFields_refl fs h

theorem pyEqList_refl (es : List Json) (h : nanFreeList es = true) :
    pyEqList es es = true := by
  cases es with
  | nil => rfl
  | cons e es =>
    rw [nanFreeList, Bool.and_eq_true] at h
    rw [pyEqList, Bool.and_eq_true]
    exact ⟨pyEqJson_refl e h.1, pyEqList_refl es h.2⟩

theorem pyEqFields_refl (fs : List (List Char × Json)) (h : nanFreeFields fs = true) :
    pyEqFields fs fs = true := by
  cases fs with
  | nil => rfl
  | cons f fs =>
    obtain ⟨k, v⟩ := f
    rw [nanFreeFields, Bool.and_eq_true] at h
    rw [pyEqFields, Bool.and_eq_true, Bool.and_eq_true]
    exact ⟨⟨by simp, pyEqJson_refl v h.1⟩, pyEqFields_refl fs h.2⟩

end

/-- Fields of a detection event whose confidence is the NaN constant,
which Python's json module parses by default. -/
def nanFields : List (List Char × Json) :=
  [("image_path".data, .str ("a.jpg".data)), ("confidence".data, .nan)]

/-- Its JSON text. -/
def nanText : List Char :=
  lbraceC :: ("\"image_path\": \"a.jpg\", \"confidence\": NaN".data ++ [rbraceC])

/-- Its MQTT payload bytes. -/
def nanPayload : List Nat :=
  nanText.map Char.toNat

/-- The enriched object the worker builds from the NaN-carrying event. -/
def nanEnriched : List (List Char × Json) :=
  enrichedFields nanFields (workerReasoning (.responds ("ok".data))) ("agent-1".data)
    ("3".data)

/-- C7 (amended): every payload the worker publishes on the enriched
channel parses back to the same value — it is parseable and stable
under parse → re-serialize → parse — and whenever it contains no NaN
the two parses are field-for-field equal under Python's `==`. The
claim's unconditional equality fails on the code: Python's json module
parses and re-emits NaN by default, so a NaN-carrying event is
enriched and republished with the NaN intact, and the two parses of
that payload compare unequal (see the counterexample). -/
theorem published_payload_roundtrips
    {fsExists : List Char → Bool} {outcome : AnalyzeOutcome}
    {agentId nowIso : List Char} {payload : List Nat}
    {r : WorkerResult} {msg : Json}
    (hr : workerOnMessage fsExists outcome agentId nowIso payload = .ok r)
    (hm : msg ∈ r.published) :
    loads (dumps msg) = some msg ∧
    (nanFree msg = true → pyEqJson msg msg = true) := by
  refine ⟨?_, fun hnf => pyEqJson_refl msg hnf⟩
  rw [workerOnMessage] at hr
  rcases hbv : workerBody fsExists outcome agentId nowIso payload with e | r0 <;>
    rw [hbv] at hr
  · cases hr
    simp at hm
  · simp only [] at hr
    cases hr
    rw [workerBody] at hbv
    rcases hd : utf8Decode? payload with _ | text <;> rw [hd] at hbv
    · simp at hbv
    · simp only [] at hbv
      rcases hl : loads text with _ | v <;> rw [hl] at hbv
      · simp at hbv
      · cases v with
        | null => simp at hbv
        | bool b => simp at hbv
        | num neg ip frac ex => simp at hbv
        | nan => simp at hbv
        | inf b => simp at hbv
        | str s => simp at hbv
        | arr es => simp at hbv
        | obj fields =>
          simp only [] at hbv
          rcases hg : getField fields ("image_path".data) with _ | w <;>
            rw [hg] at hbv
          · rw [workerOnPath] at hbv
            cases hbv
            simp at hm
          · cases w with
            | null =>
              rw [workerOnPath] at hbv
              cases hbv
              simp at hm
            | bool b =>
              cases b with
              | true =>
                rw [workerOnPath, if_pos rfl] at hbv
                simp at hbv
              | false =>
                rw [workerOnPath, if_neg (by simp)] at hbv
                cases hbv
                simp at hm
            | num neg ip frac ex =>
              rw [workerOnPath] at hbv
              by_cases hz : pyFalsy (.num neg ip frac ex) = true
              · rw [if_pos hz] at hbv
                cases hbv
                simp at hm
              · rw [if_neg hz] at hbv
                simp at hbv
            | nan =>
              rw [workerOnPath] at hbv
              simp at hbv
            | inf b =>
              rw [workerOnPath] at hbv
              simp at hbv
            | arr es =>
              rw [workerOnPath] at hbv
              by_cases hz : es.isEmpty = true
              · rw [if_pos hz] at hbv
                cases hbv
                simp at hm
              · rw [if_neg hz] at hbv
                simp at hbv
            | obj fs =>
              rw [workerOnPath] at hbv
              by_cases hz : fs.isEmpty = true
              · rw [if_pos hz] at hbv
                cases hbv
                simp at hm
              · rw [if_neg hz] at hbv
                simp at hbv
            | str p =>
              rw [workerOnPath] at hbv
              by_cases hemp : p.isEmpty = true
              · rw [if_pos hemp] at hbv
                cases hbv
                simp at hm
              · rw [if_neg hemp] at hbv
                by_cases hex : fsExists p = true
                · rw [if_pos hex] at hbv
                  have hfw : jsonFieldsWF fields = true := by
                    have h := loads_wf hl
                    rw [Json.wf] at h
                    exact h
                  rw [workerEnrich_eq hfw] at hbv
                  cases hbv
                  have hmsg : msg = .obj (enrichedFields fields
                      (workerReasoning outcome) agentId nowIso) := by
                    simpa using hm
                  rw [hmsg]
                  exact loads_dumps (by rw [Json.wf]; exact enrichedFields_wf hfw _ _ _)
                · rw [if_neg hex] at hbv
                  cases hbv
                  simp at hm

/-- C7 counterexample: the round-trip claim as stated fails on the
code. For the event `\x7b"image_path": "a.jpg", "confidence": NaN\x7d`
— which Python's json module parses by default — with the image
present, the worker enriches and publishes the event with the NaN
intact; the published payload parses (first and second time alike) to
the same value, yet the two parses are not field-for-field equal under
Python's `==`, because `float('nan') == float('nan')` is false. -/
theorem published_nan_payload_breaks_roundtrip :
    workerOnMessage sampleExists (.responds ("ok".data)) ("agent-1".data) ("3".data)
      nanPayload = .ok ⟨[.obj nanEnriched], 1, 0, false⟩ ∧
    loads (dumps (.obj nanEnriched)) = some (.obj nanEnriched) ∧
    pyEqJson (.obj nanEnriched) (.obj nanEnriched) = false :=
  ⟨workerOnMessage_run
      (show utf8Decode? nanPayload = some nanText from rfl)
      (show loads nanText = some (.obj nanFields) from rfl)
      (show getField nanFields ("image_path".data) = some (.str ("a.jpg".data)) from rfl)
      (show ("a.jpg".data).isEmpty = false from rfl)
      (show sampleExists ("a.jpg".data) = true from rfl),
    loads_dumps (by rw [Json.wf]; exact enrichedFields_wf (by rfl) _ _ _),
    by rfl⟩

theorem published_payload_roundtrips_wit :
    (loads (dumps (.obj (enrichedFields sampleFields
      (workerReasoning (.responds ("ok".data))) ("agent-1".data) ("3".data)))) =
    some (.obj (enrichedFields sampleFields
      (workerReasoning (.responds ("ok".data))) ("agent-1".data) ("3".data)))) ∧
    (nanFree (.obj (enrichedFields sampleFields
        (workerReasoning (.responds ("ok".data))) ("agent-1".data) ("3".data))) = true →
      pyEqJson (.obj (enrichedFields sampleFields
          (workerReasoning (.responds ("ok".data))) ("agent-1".data) ("3".data)))
        (.obj (enrichedFields sampleFields
          (workerReasoning (.responds ("ok".data))) ("agent-1".data) ("3".data))) =
        true) :=
  published_payload_roundtrips
    (workerOnMessage_run
      (show utf8Decode? samplePayload = some sampleText from rfl)
      (show loads sampleText = some (.obj sampleFields) from rfl)
      (show getField sampleFields ("image_path".data) =
        some (.str ("a.jpg".data)) from rfl)
      (show ("a.jpg".data).isEmpty = false from rfl)
      (show sampleExists ("a.jpg".data) = true from rfl))
    (List.Mem.head _)

/-! ## Image pre-processing size (azure_foundry_reasoner.py lines 109-118)

`image_to_base64_url` calls `img.thumbnail((1024, 1024), LANCZOS)` only
when `max(img.size) > 1024`. PIL's `thumbnail` keeps the aspect ratio:
with target (1024, 1024) it returns unchanged when both dimensions fit,
otherwise it scales the longest edge to 1024 and picks the other edge
as the floor or the ceiling of the exact scaled value (whichever makes
the aspect ratio closer, floor on ties), clamped to at least 1.
Dimensions are exact naturals and the scaled value an exact rational. -/

/-- PIL `round_aspect`: `min(math.floor(number), math.ceil(number),
key)` — the floor when its key is not larger, else the ceiling. -/
def roundAspectPick (number : ℚ) (err : ℤ → ℚ) : ℤ :=
  if err ⌊number⌋ ≤ err ⌈number⌉ then ⌊number⌋ else ⌈number⌉

/-- The new width of a portrait (or square) image scaled to height
1024: `round_aspect(y * aspect, key=lambda n: abs(aspect - n / y))`,
clamped to at least 1. -/
def thumbTallWidth (w h : Nat) : Nat :=
  (max (roundAspectPick ((1024 * w : ℚ) / h)
    (fun m => |(w : ℚ) / h - (m : ℚ) / 1024|)) 1).toNat

/-- The new height of a landscape image scaled to width 1024:
`round_aspect(x / aspect, key=lambda n: 0 if n == 0 else
abs(aspect - x / n))`, clamped to at least 1. -/
def thumbWideHeight (w h : Nat) : Nat :=
  (max (roundAspectPick ((1024 * h : ℚ) / w)
    (fun m => if m = 0 then 0 else |(w : ℚ) / h - 1024 / (m : ℚ)|)) 1).toNat

/-- PIL `Image.thumbnail((1024, 1024))` on a `w × h` image: unchanged
when both dimensions fit, else scale so the longest edge is 1024,
branching on `x / y >= aspect` (which with a square target reads
`aspect <= 1`). -/
def thumbFit (w h : Nat) : Nat × Nat :=
  if 1024 ≥ w ∧ 1024 ≥ h then (w, h)
  else if (w : ℚ) / h ≤ 1 then (thumbTallWidth w h, 1024)
  else (1024, thumbWideHeight w h)

/-- The size produced by `image_to_base64_url`'s optimization step:
`thumbnail` is invoked only when `max(img.size) > 1024` (line 112). -/
def preprocessSize (w h : Nat) : Nat × Nat :=
  if max w h > 1024 then thumbFit w h else (w, h)

theorem pick_close {number : ℚ} (hpos : 0 < number) (hub : number ≤ 1024)
    (err : ℤ → ℚ) :
    1 ≤ max (roundAspectPick number err) 1 ∧
    max (roundAspectPick number err) 1 ≤ 1024 ∧
    |((max (roundAspectPick number err) 1 : ℤ) : ℚ) - number| ≤ 1 := by
  have hfl : (⌊number⌋ : ℚ) ≤ number := Int.floor_le number
  have hfl2 : number - 1 < ⌊number⌋ := Int.sub_one_lt_floor number
  have hcl : number ≤ ⌈number⌉ := Int.le_ceil number
  have hcl2 : (⌈number⌉ : ℚ) < number + 1 := Int.ceil_lt_add_one number
  have hcp : 1 ≤ ⌈number⌉ := Int.ceil_pos.mpr hpos
  have hcu : ⌈number⌉ ≤ 1024 := Int.ceil_le.mpr (by exact_mod_cast hub)
  have hfu : ⌊number⌋ ≤ 1024 := le_trans (Int.floor_le_ceil number) hcu
  rw [roundAspectPick]
  split_ifs with hkey
  · by_cases h1 : 1 ≤ ⌊number⌋
    · rw [max_eq_left h1]
      refine ⟨h1, hfu, ?_⟩
      rw [abs_le]
      constructor <;> linarith
    · rw [max_eq_right (by omega)]
      have hz : ⌊number⌋ ≤ 0 := by omega
      have hzq : (⌊number⌋ : ℚ) ≤ 0 := by exact_mod_cast hz
      refine ⟨le_refl 1, by omega, ?_⟩
      rw [abs_le]
      constructor <;> push_cast <;> linarith
  · rw [max_eq_left hcp]
    refine ⟨hcp, hcu, ?_⟩
    rw [abs_le]
    constructor <;> linarith

theorem thumbTall_spec {w h : Nat} (hw : 0 < w) (hwh : w ≤ h) (hh : 1024 < h) :
    1 ≤ thumbTallWidth w h ∧ thumbTallWidth w h ≤ 1024 ∧
    |(thumbTallWidth w h : ℚ) * h - 1024 * w| ≤ h := by
  have hhp : (0 : ℚ) < h := by exact_mod_cast (by omega : 0 < h)
  have hwp : (0 : ℚ) < w := by exact_mod_cast hw
  have hwhq : (w : ℚ) ≤ h := by exact_mod_cast hwh
  have hnum_pos : 0 < (1024 * w : ℚ) / h := div_pos (by nlinarith) hhp
  have hnum_ub : (1024 * w : ℚ) / h ≤ 1024 := by
    rw [div_le_iff₀ hhp]
    nlinarith
  obtain ⟨h1, h2, h3⟩ := pick_close hnum_pos hnum_ub
    (fun m => |(w : ℚ) / h - (m : ℚ) / 1024|)
  rw [thumbTallWidth]
  set p := max (roundAspectPick ((1024 * w : ℚ) / h)
    (fun m => |(w : ℚ) / h - (m : ℚ) / 1024|)) 1 with hp
  have hpnn : 0 ≤ p := by omega
  have hcast : ((p.toNat : ℕ) : ℚ) = (p : ℚ) := by exact_mod_cast Int.toNat_of_nonneg hpnn
  refine ⟨by omega, by omega, ?_⟩
  have hmul : ((1024 * w : ℚ) / h) * h = 1024 * w := div_mul_cancel₀ _ (ne_of_gt hhp)
  have hrw : (p.toNat : ℚ) * h - 1024 * w = ((p : ℚ) - (1024 * w : ℚ) / h) * h := by
    rw [hcast, sub_mul, hmul]
  rw [hrw, abs_mul, abs_of_pos hhp]
  nlinarith [abs_nonneg ((p : ℚ) - (1024 * w : ℚ) / h)]

theorem thumbWide_spec {w h : Nat} (hh : 0 < h) (hhw : h ≤ w) (hw : 1024 < w) :
    1 ≤ thumbWideHeight w h ∧ thumbWideHeight w h ≤ 1024 ∧
    |(1024 : ℚ) * h - (thumbWideHeight w h : ℚ) * w| ≤ w := by
  have hwp : (0 : ℚ) < w := by exact_mod_cast (by omega : 0 < w)
  have hhp : (0 : ℚ) < h := by exact_mod_cast hh
  have hhwq : (h : ℚ) ≤ w := by exact_mod_cast hhw
  have hnum_pos : 0 < (1024 * h : ℚ) / w := div_pos (by nlinarith) hwp
  have hnum_ub : (1024 * h : ℚ) / w ≤ 1024 := by
    rw [div_le_iff₀ hwp]
    nlinarith
  obtain ⟨h1, h2, h3⟩ := pick_close hnum_pos hnum_ub
    (fun m => if m = 0 then 0 else |(w : ℚ) / h - 1024 / (m : ℚ)|)
  rw [thumbWideHeight]
  set p := max (roundAspectPick ((1024 * h : ℚ) / w)
    (fun m => if m = 0 then 0 else |(w : ℚ) / h - 1024 / (m : ℚ)|)) 1 with hp
  have hpnn : 0 ≤ p := by omega
  have hcast : ((p.toNat : ℕ) : ℚ) = (p : ℚ) := by exact_mod_cast Int.toNat_of_nonneg hpnn
  refine ⟨by omega, by omega, ?_⟩
  have hmul : ((1024 * h : ℚ) / w) * w = 1024 * h := div_mul_cancel₀ _ (ne_of_gt hwp)
  have hrw : (1024 : ℚ) * h - (p.toNat : ℚ) * w =
      (((1024 * h : ℚ) / w) - (p : ℚ)) * w := by
    rw [hcast, sub_mul, hmul]
  rw [hrw, abs_mul, abs_of_pos hwp]
  have h4 : |((1024 * h : ℚ) / w) - (p : ℚ)| ≤ 1 := by
    rw [abs_sub_comm]
    exact h3
  nlinarith [abs_nonneg (((1024 * h : ℚ) / w) - (p : ℚ))]

/-- C5: the image pre-processing never upsamples. If both dimensions
are at most 1024 the size is returned unchanged; if the longer
dimension exceeds 1024 the output's longest edge is exactly 1024,
neither output dimension exceeds the input's longest edge, both stay
positive, and the aspect ratio is preserved to within rounding: the
cross-multiplied deviation `|w' * h - h' * w|` is at most one part in
the longest edge. -/
theorem thumbnail_never_upsamples (w h : Nat) (hw : 0 < w) (hh : 0 < h) :
    (max w h ≤ 1024 → preprocessSize w h = (w, h)) ∧
    (1024 < max w h →
      max (preprocessSize w h).1 (preprocessSize w h).2 = 1024 ∧
      (preprocessSize w h).1 ≤ max w h ∧ (preprocessSize w h).2 ≤ max w h ∧
      0 < (preprocessSize w h).1 ∧ 0 < (preprocessSize w h).2 ∧
      |((preprocessSize w h).1 : ℚ) * h - ((preprocessSize w h).2 : ℚ) * w| ≤
        max w h) := by
  constructor
  · intro hle
    rw [preprocessSize, if_neg (by omega)]
  · intro hgt
    rw [preprocessSize, if_pos hgt, thumbFit, if_neg (by omega)]
    have hhp : (0 : ℚ) < h := by exact_mod_cast hh
    by_cases hcase : (w : ℚ) / h ≤ 1
    · rw [if_pos hcase]
      have hwh : w ≤ h := by
        have := (div_le_one hhp).mp hcase
        exact_mod_cast this
      have hhg : 1024 < h := by omega
      obtain ⟨t1, t2, t3⟩ := thumbTall_spec hw hwh hhg
      have hmax : max w h = h := Nat.max_eq_right hwh
      refine ⟨by simp only []; omega, by simp only []; omega,
        by simp only []; omega, by simp only []; omega, by norm_num, ?_⟩
      simp only []
      rw [hmax]
      exact t3
    · rw [if_neg hcase]
      have hwh : h ≤ w := by
        have hq : (1 : ℚ) < (w : ℚ) / h := lt_of_not_le hcase
        rw [lt_div_iff₀ hhp, one_mul] at hq
        exact_mod_cast le_of_lt hq
      have hwg : 1024 < w := by omega
      obtain ⟨t1, t2, t3⟩ := thumbWide_spec hh hwh hwg
      have hmax : max w h = w := Nat.max_eq_left hwh
      refine ⟨by simp only []; omega, by simp only []; omega,
        by simp only []; omega, by norm_num, by simp only []; omega, ?_⟩
      simp only []
      rw [hmax]
      exact t3

theorem thumbnail_never_upsamples_wit :
    (max 2048 1536 ≤ 1024 → preprocessSize 2048 1536 = (2048, 1536)) ∧
    (1024 < max 2048 1536 →
      max (preprocessSize 2048 1536).1 (preprocessSize 2048 1536).2 = 1024 ∧
      (preprocessSize 2048 1536).1 ≤ max 2048 1536 ∧
      (preprocessSize 2048 1536).2 ≤ max 2048 1536 ∧
      0 < (preprocessSize 2048 1536).1 ∧ 0 < (preprocessSize 2048 1536).2 ∧
      |((preprocessSize 2048 1536).1 : ℚ) * (1536 : ℕ) -
        ((preprocessSize 2048 1536).2 : ℚ) * (2048 : ℕ)| ≤
        ((max 2048 1536 : ℕ) : ℚ)) :=
  thumbnail_never_upsamples 2048 1536 (by decide) (by decide)

/-! ## Producer (cv_publisher.py `main`, lines 101-164) -/

theorem char_toNat_inj {a b : Char} (h : a.toNat = b.toNat) : a = b :=
  Char.eq_of_val_eq (UInt32.ext h)

theorem listCharLe_total (x y : List Char) :
    listCharLe x y = true ∨ listCharLe y x = true := by
  induction x generalizing y with
  | nil => exact Or.inl rfl
  | cons a as ih =>
    cases y with
    | nil => exact Or.inr rfl
    | cons b bs =>
      by_cases hab : a = b
      · subst hab
        rw [listCharLe, if_pos rfl, listCharLe, if_pos rfl]
        exact ih bs
      · have hba : ¬b = a := fun h => hab h.symm
        rw [listCharLe, if_neg hab, listCharLe, if_neg hba]
        rcases Nat.lt_trichotomy a.toNat b.toNat with h | h | h
        · exact Or.inl (by simpa using h)
        · exact absurd (char_toNat_inj h) hab
        · exact Or.inr (by simpa using h)

/-- Insertion into a list sorted by path. -/
def insertSorted (x : List Char) : List (List Char) → List (List Char)
  | [] => [x]
  | y :: ys => if listCharLe x y then x :: y :: ys else y :: insertSorted x ys

/-- Model of `sorted(jpg_images + png_images)` (line 104): sorting the
candidate paths in Python's lexicographic string order. -/
def sortPaths : List (List Char) → List (List Char)
  | [] => []
  | x :: xs => insertSorted x (sortPaths xs)

/-- The list is ordered under `listCharLe`. -/
def pathsSorted : List (List Char) → Bool
  | [] => true
  | [_] => true
  | x :: y :: r => listCharLe x y && pathsSorted (y :: r)

theorem insertSorted_sorted {l : List (List Char)} (h : pathsSorted l = true)
    (x : List Char) : pathsSorted (insertSorted x l) = true := by
  induction l with
  | nil => rfl
  | cons y ys ih =>
    rw [insertSorted]
    by_cases hxy : listCharLe x y = true
    · rw [if_pos hxy, pathsSorted, Bool.and_eq_true]
      exact ⟨hxy, h⟩
    · rw [if_neg hxy]
      have hyx : listCharLe y x = true := (listCharLe_total x y).resolve_left hxy
      cases ys with
      | nil => simp [insertSorted, pathsSorted, hyx]
      | cons z zs =>
        rw [pathsSorted, Bool.and_eq_true] at h
        have hs := ih h.2
        rw [insertSorted]
        by_cases hxz : listCharLe x z = true
        · rw [if_pos hxz, pathsSorted, Bool.and_eq_true]
          refine ⟨hyx, ?_⟩
          rw [pathsSorted, Bool.and_eq_true]
          exact ⟨hxz, h.2⟩
        · rw [if_neg hxz, pathsSorted, Bool.and_eq_true]
          rw [insertSorted, if_neg hxz] at hs
          exact ⟨h.1, hs⟩

theorem sortPaths_sorted (l : List (List Char)) : pathsSorted (sortPaths l) = true := by
  induction l with
  | nil => rfl
  | cons x xs ih =>
    rw [sortPaths]
    exact insertSorted_sorted ih x

theorem insertSorted_length (x : List Char) (l : List (List Char)) :
    (insertSorted x l).length = l.length + 1 := by
  induction l with
  | nil => rfl
  | cons y ys ih =>
    rw [insertSorted]
    by_cases hxy : listCharLe x y = true
    · rw [if_pos hxy]
      rfl
    · rw [if_neg hxy, List.length_cons, ih, List.length_cons]

theorem sortPaths_length (l : List (List Char)) : (sortPaths l).length = l.length := by
  induction l with
  | nil => rfl
  | cons x xs ih =>
    rw [sortPaths, insertSorted_length, ih, List.length_cons]

/-- Python's `round` on an exact value: round half to even. -/
def roundHalfEven (q : ℚ) : ℤ :=
  if q - ⌊q⌋ < 1/2 then ⌊q⌋
  else if q - ⌊q⌋ > 1/2 then ⌊q⌋ + 1
  else if ⌊q⌋ % 2 = 0 then ⌊q⌋ else ⌊q⌋ + 1

/-- Model of `round(x, 2)` (line 122), with the sampled value taken as
an exact rational. -/
def pyRound2 (q : ℚ) : ℚ := (roundHalfEven (q * 100) : ℚ) / 100

theorem roundHalfEven_bounds (lo hi : ℤ) {q : ℚ} (hlo : (lo : ℚ) ≤ q)
    (hhi : q ≤ (hi : ℚ)) : lo ≤ roundHalfEven q ∧ roundHalfEven q ≤ hi := by
  have hfl : lo ≤ ⌊q⌋ := Int.le_floor.mpr hlo
  have hfu : ⌊q⌋ ≤ hi := by
    have := Int.floor_le_floor hhi
    rwa [Int.floor_intCast] at this
  have hq1 : (⌊q⌋ : ℚ) ≤ q := Int.floor_le q
  have hmid : ¬(q - ⌊q⌋ < 1/2) → ⌊q⌋ + 1 ≤ hi := by
    intro h
    have h' : (⌊q⌋ : ℚ) + 1/2 ≤ q := by linarith
    have h2 : (⌊q⌋ : ℚ) < (hi : ℚ) := by linarith
    have h3 : ⌊q⌋ < hi := by exact_mod_cast h2
    omega
  rw [roundHalfEven]
  split_ifs with h1 h2 h3
  · exact ⟨hfl, hfu⟩
  · exact ⟨by omega, hmid h1⟩
  · exact ⟨hfl, hfu⟩
  · exact ⟨by omega, hmid h1⟩

theorem pyRound2_bounds {q : ℚ} (h1 : 11/20 ≤ q) (h2 : q ≤ 19/20) :
    11/20 ≤ pyRound2 q ∧ pyRound2 q ≤ 19/20 := by
  have hb := roundHalfEven_bounds 55 95 (q := q * 100) (by push_cast; linarith)
    (by push_cast; linarith)
  rw [pyRound2]
  constructor
  · have h : (55 : ℚ) ≤ (roundHalfEven (q * 100) : ℚ) := by exact_mod_cast hb.1
    linarith
  · have h : ((roundHalfEven (q * 100) : ℚ)) ≤ 95 := by exact_mod_cast hb.2
    linarith

/-- The raw detection event dict of lines 128-134 (confidence kept as
the exact sampled rational). -/
structure DetectionEvent where
  image_path : List Char
  defect_type : List Char
  confidence : ℚ
  timestamp : List Char
  line_id : List Char

/-- The message built on tick `n` (0-based): `images[i % len(images)]`
with `i = n`, placeholder defect type, and the line id. -/
def producerMsg (images : List (List Char)) (c : ℚ) (ts : List Char) (n : Nat) :
    DetectionEvent :=
  ⟨images.getD (n % images.length) [], "unknown".data, c, ts, "line1".data⟩

/-- Loop state of the producer: the index counter and the messages
handed to `client.publish` so far. -/
structure ProducerState where
  i : Nat
  published : List DetectionEvent

/-- One iteration of the publishing loop (lines 119-164): sample,
build, attempt the publish (its outcome `_pubOk` is only logged — the
try/except around `client.publish` swallows failures), then `i += 1`
unconditionally. -/
def producerStep (images : List (List Char)) (u : ℚ) (ts : List Char)
    (_pubOk : Bool) (s : ProducerState) : ProducerState :=
  ⟨s.i + 1, s.published ++ [producerMsg images (pyRound2 u) ts s.i]⟩

/-- The producer loop after `N` ticks, driven by oracles for the
sampler, the clock and the publish outcomes. -/
def producerRun (images : List (List Char)) (samples : Nat → ℚ)
    (clock : Nat → List Char) (pub : Nat → Bool) : Nat → ProducerState
  | 0 => ⟨0, []⟩
  | n + 1 => producerStep images (samples n) (clock n) (pub n)
      (producerRun images samples clock pub n)

theorem producerRun_spec (images : List (List Char)) (samples : Nat → ℚ)
    (clock : Nat → List Char) (pub : Nat → Bool) (N : Nat) :
    producerRun images samples clock pub N =
      ⟨N, (List.range N).map fun n =>
        producerMsg images (pyRound2 (samples n)) (clock n) n⟩ := by
  induction N with
  | zero => rfl
  | succ n ih =>
    rw [producerRun, ih, producerStep]
    simp [List.range_succ]

/-- C8: for every non-empty candidate list, the producer's tick `n`
publishes the event for the image at index `n mod length` of the list
sorted by path — cycling through the sorted list in order, wrapping
after the last element, and advancing by one each tick regardless of
the publish outcomes (two runs with different outcome oracles publish
identically); and each tick's confidence is the fresh sample for that
tick, rounded, and lies in [0.55, 0.95] ⊆ [0, 1]. -/
theorem producer_cycles_sorted_list
    {raw : List (List Char)} (hne : raw ≠ [])
    (samples : Nat → ℚ) (clock : Nat → List Char) (pub pub' : Nat → Bool)
    (hs : ∀ k, 11/20 ≤ samples k ∧ samples k ≤ 19/20)
    (N n : Nat) (hn : n < N) :
    pathsSorted (sortPaths raw) = true ∧
    sortPaths raw ≠ [] ∧
    producerRun (sortPaths raw) samples clock pub N =
      producerRun (sortPaths raw) samples clock pub' N ∧
    (producerRun (sortPaths raw) samples clock pub N).published.length = N ∧
    (producerRun (sortPaths raw) samples clock pub N).published.getD n
        (producerMsg (sortPaths raw) 0 [] 0) =
      producerMsg (sortPaths raw) (pyRound2 (samples n)) (clock n) n ∧
    (producerMsg (sortPaths raw) (pyRound2 (samples n)) (clock n) n).image_path =
      (sortPaths raw).getD (n % (sortPaths raw).length) [] ∧
    (n + (sortPaths raw).length) % (sortPaths raw).length =
      n % (sortPaths raw).length ∧
    11/20 ≤ (producerMsg (sortPaths raw) (pyRound2 (samples n)) (clock n) n).confidence ∧
    (producerMsg (sortPaths raw) (pyRound2 (samples n)) (clock n) n).confidence ≤ 19/20 ∧
    0 ≤ (producerMsg (sortPaths raw) (pyRound2 (samples n)) (clock n) n).confidence ∧
    (producerMsg (sortPaths raw) (pyRound2 (samples n)) (clock n) n).confidence ≤ 1 := by
  have hlen : (sortPaths raw).length = raw.length := sortPaths_length raw
  have hb := pyRound2_bounds (hs n).1 (hs n).2
  refine ⟨sortPaths_sorted raw, ?_, ?_, ?_, ?_, rfl, Nat.add_mod_right n _,
    hb.1, hb.2, by show (0:ℚ) ≤ pyRound2 (samples n); linarith [hb.1],
    by show pyRound2 (samples n) ≤ (1:ℚ); linarith [hb.2]⟩
  · intro hcon
    apply hne
    have := sortPaths_length raw
    rw [hcon] at this
    exact List.length_eq_zero.mp this.symm
  · rw [producerRun_spec, producerRun_spec]
  · rw [producerRun_spec]
    simp
  · rw [producerRun_spec]
    simp only []
    rw [List.getD_eq_getElem?_getD, List.getElem?_map, List.getElem?_range hn]
    rfl

theorem producer_cycles_sorted_list_wit :
    pathsSorted (sortPaths ["b.jpg".data, "a.jpg".data]) = true ∧
    sortPaths ["b.jpg".data, "a.jpg".data] ≠ [] ∧
    producerRun (sortPaths ["b.jpg".data, "a.jpg".data]) (fun _ => 7/10)
        (fun _ => "t".data) (fun _ => true) 3 =
      producerRun (sortPaths ["b.jpg".data, "a.jpg".data]) (fun _ => 7/10)
        (fun _ => "t".data) (fun _ => false) 3 ∧
    (producerRun (sortPaths ["b.jpg".data, "a.jpg".data]) (fun _ => 7/10)
        (fun _ => "t".data) (fun _ => true) 3).published.length = 3 ∧
    (producerRun (sortPaths ["b.jpg".data, "a.jpg".data]) (fun _ => 7/10)
        (fun _ => "t".data) (fun _ => true) 3).published.getD 2
        (producerMsg (sortPaths ["b.jpg".data, "a.jpg".data]) 0 [] 0) =
      producerMsg (sortPaths ["b.jpg".data, "a.jpg".data]) (pyRound2 (7/10))
        ("t".data) 2 ∧
    (producerMsg (sortPaths ["b.jpg".data, "a.jpg".data]) (pyRound2 (7/10))
        ("t".data) 2).image_path =
      (sortPaths ["b.jpg".data, "a.jpg".data]).getD
        (2 % (sortPaths ["b.jpg".data, "a.jpg".data]).length) [] ∧
    (2 + (sortPaths ["b.jpg".data, "a.jpg".data]).length) %
        (sortPaths ["b.jpg".data, "a.jpg".data]).length =
      2 % (sortPaths ["b.jpg".data, "a.jpg".data]).length ∧
    11/20 ≤ (producerMsg (sortPaths ["b.jpg".data, "a.jpg".data]) (pyRound2 (7/10))
        ("t".data) 2).confidence ∧
    (producerMsg (sortPaths ["b.jpg".data, "a.jpg".data]) (pyRound2 (7/10))
        ("t".data) 2).confidence ≤ 19/20 ∧
    0 ≤ (producerMsg (sortPaths ["b.jpg".data, "a.jpg".data]) (pyRound2 (7/10))
        ("t".data) 2).confidence ∧
    (producerMsg (sortPaths ["b.jpg".data, "a.jpg".data]) (pyRound2 (7/10))
        ("t".data) 2).confidence ≤ 1 :=
  producer_cycles_sorted_list (by simp) (fun _ => 7/10) (fun _ => "t".data)
    (fun _ => true) (fun _ => false)
    (fun _ => ⟨by norm_num, by norm_num⟩) 3 2 (by decide)

/-! ## Monitor (mqtt_listener.py `on_message`) -/

/-- Rendering of a parsed payload (lines 90-175): field lookups with
defaults, then topic-dependent formatting. String operations raise on
non-string field values (the backslash test on `image_path`, `.upper()`
on `model_used`, `.split()` on `reasoning`, the numeric comparison and
format of `confidence`); a bool passes the numeric path as in Python. -/
def monitorRender (topic : List Char) (fields : List (List Char × Json)) :
    Except (List Char) Unit :=
  match (getField fields ("image_path".data)).getD (.str ("unknown".data)) with
  | .str _ =>
    if topic = "factory/line1/defects/enriched".data then
      match (getField fields ("model_used".data)).getD (.str ("unknown".data)) with
      | .str _ =>
        match (getField fields ("reasoning".data)).getD (.str ("no reasoning".data)) with
        | .str _ => .ok ()
        | _ => .error ("AttributeError: split".data)
      | _ => .error ("AttributeError: upper".data)
    else
      match (getField fields ("confidence".data)).getD (.num false (['0']) [] []) with
      | .num _ _ _ _ => .ok ()
      | .bool _ => .ok ()
      | .nan => .ok ()
      | .inf _ => .ok ()
      | _ => .error ("TypeError: order comparison".data)
  | _ => .error ("TypeError: in".data)

/-- The body of the monitor's try block (lines 88-175): decode, parse
as JSON, look fields up and render. -/
def monitorBody (topic : List Char) (payload : List Nat) : Except (List Char) Unit :=
  match utf8Decode? payload with
  | none => .error ("UnicodeDecodeError".data)
  | some text =>
    match loads text with
    | none => .error ("JSONDecodeError".data)
    | some (.obj fields) => monitorRender topic fields
    | some _ => .error ("AttributeError: get".data)

/-- The monitor's except block (lines 177-182): it prints an error
report whose last line interpolates `msg.payload.decode()[:100]` — a
second strict decode of the raw bytes, outside any handler, which
raises again when the bytes are not valid UTF-8. -/
def monitorExceptBlock (_e : List Char) (payload : List Nat) :
    Except (List Char) Unit :=
  match utf8Decode? payload with
  | some _ => .ok ()
  | none => .error ("UnicodeDecodeError".data)

/-- Model of the monitor's `on_message` callback (lines 84-182): the
try body, with every escaped exception routed to the except block. -/
def monitorOnMessage (topic : List Char) (payload : List Nat) :
    Except (List Char) Unit :=
  match monitorBody topic payload with
  | .ok u => .ok u
  | .error e => monitorExceptBlock e payload

/-- C6: the claim that the monitor's handler catches every malformed
payload per message fails on the code: for the payload consisting of
the single byte 255 (not valid UTF-8) the decode in the try block
raises, and the except block's error report calls
`msg.payload.decode()` again (mqtt_listener.py line 182), so the
handler re-raises UnicodeDecodeError out of `on_message` instead of
returning — the exception escapes to the network loop. -/
theorem monitor_crashes_on_invalid_utf8 :
    monitorOnMessage ("factory/line1/defects".data) [255] =
      .error ("UnicodeDecodeError".data) := rfl

/-- C10: the worker's message handler is total at its public boundary:
for every payload (including non-UTF-8 bytes, non-JSON text and JSON
without a usable `image_path`), every filesystem state and every
reasoning outcome, the callback completes without propagating an
exception — at worst its outer except block runs. -/
theorem worker_handler_never_propagates (fsExists : List Char → Bool)
    (outcome : AnalyzeOutcome) (agentId nowIso : List Char) (payload : List Nat) :
    exceptOk (workerOnMessage fsExists outcome agentId nowIso payload) = true := by
  rw [workerOnMessage]
  rcases hb : workerBody fsExists outcome agentId nowIso payload with e | r
  · rfl
  · rfl

end CvEnrich
